import Mathlib

/-!
Verification development for the genql runtime: the selection-to-document
compiler (`generateGraphqlOperation`), the transport client (batching and
per-call header computation) and the subscription client (multiplexing by
correlation id).  The repository ships only the public export surface and
the test suite for these components, so the operational definitions below
are modelled from the specification document, with the tests fixing the
observable behaviour (falsy selections, batching, header invocation counts,
subscription delivery).
-/

/-! ## Definitions -/

/-- Decimal digits of `n`, most significant first; `fuel` bounds recursion. -/
def natStrAux : Nat → Nat → List Char
  | 0, _ => []
  | fuel + 1, n =>
    if n < 10 then [Nat.digitChar n]
    else natStrAux fuel (n / 10) ++ [Nat.digitChar (n % 10)]

/-- Decimal string of a natural number. -/
def natStr (n : Nat) : String := ⟨natStrAux (n + 1) n⟩

/-- Numeric value of a digit character (inverse of `Nat.digitChar` below 10). -/
def charVal (c : Char) : Nat := c.toNat - 48

/-- Decode a digit string back to the number it denotes. -/
def decodeDigits (l : List Char) : Nat := l.foldl (fun acc c => acc * 10 + charVal c) 0

/-- Modelled from the spec: a literal argument as written in a Selection
Tree entry — the argument's wire name and its serialized literal value.
The runtime compiler is not shipped under `src/`; argument shapes follow
spec section 3. -/
structure ArgLit where
  name : String
  value : String
deriving DecidableEq, Repr

/-- Modelled from the spec: a Selection Tree key.  Spec section 3 singles
out the reserved keys `__scalar` and `on_<TypeName>`; every other key
(including `__typename`) is a plain field name. -/
inductive FieldKey where
  | plain (name : String)
  | scalarKey
  | onType (typeName : String)
deriving DecidableEq, Repr

mutual
/-- Modelled from the spec: the four selection shapes of spec section 3 —
`true`/`1` (and the falsy exclusion the test suite fixes) as `incl`,
an arguments object alone as `leafArgs`, a tuple of arguments and nested
tree as `node args children`, and a nested tree alone as `node [] children`. -/
inductive Selection where
  | incl (b : Bool)
  | leafArgs (args : List ArgLit)
  | node (args : List ArgLit) (children : Entries)
/-- Modelled from the spec: a Selection Tree level — an ordered mapping
from field key to selection. -/
inductive Entries where
  | nil
  | cons (key : FieldKey) (sel : Selection) (rest : Entries)
end

/-- Modelled from the spec: the Type Link Map — abstract type to concrete
implementers, concrete type to abstract types, per-type scalar field
lists, field result types and argument wire types.  Static, immutable
schema-derived data (spec section 3). -/
structure TypeLinkMap where
  implementers : List (String × List String)
  abstracts : List (String × List String)
  scalars : List (String × List String)
  fieldTypes : List ((String × String) × String)
  argTypes : List ((String × String × String) × String)

/-- Concrete implementers recorded for an abstract type. -/
def implementersOf (m : TypeLinkMap) (t : String) : List String :=
  (m.implementers.lookup t).getD []

/-- Scalar field list recorded for a type (spec section 4.1, step 5). -/
def scalarsOf (m : TypeLinkMap) (t : String) : List String :=
  (m.scalars.lookup t).getD []

/-- Declared result type of a field of a type. -/
def fieldTypeOf (m : TypeLinkMap) (t f : String) : String :=
  (m.fieldTypes.lookup (t, f)).getD "Unknown"

/-- Declared wire type of an argument of a field. -/
def argTypeOf (m : TypeLinkMap) (t f a : String) : String :=
  (m.argTypes.lookup (t, f, a)).getD "String"

/-- Operation kind (spec section 3, Compiled Operation). -/
inductive OpKind where
  | query
  | mutation
  | subscription
deriving DecidableEq, Repr

/-- Wire keyword of an operation kind. -/
def kindKeyword : OpKind → String
  | .query => "query"
  | .mutation => "mutation"
  | .subscription => "subscription"

/-- Root type name compiled against for each operation kind. -/
def rootTypeName : OpKind → String
  | .query => "Query"
  | .mutation => "Mutation"
  | .subscription => "Subscription"

/-- Modelled from the spec: compiler failure modes (spec section 7):
`selectionError` for malformed trees and `unknownTypeCondition` for an
`on_X` whose `X` is not linked to the enclosing abstract type. -/
inductive CompileErr where
  | selectionError (msg : String)
  | unknownTypeCondition (typeName : String)
deriving DecidableEq, Repr

/-- Modelled from the spec: a Variable Binding — a hoisted literal paired
with its generated unique name and wire type (spec section 3). -/
structure Binding where
  name : String
  wireType : String
  value : String
deriving DecidableEq, Repr

mutual
/-- A compiled document body element: an (optionally aliased) field with
variable-referencing arguments and a sub-selection, or an inline
fragment scoped to one concrete type. -/
inductive DocField where
  | field (key : String) (name : String) (args : List (String × String)) (sub : DocFields)
  | frag (typeName : String) (sub : DocFields)
/-- A compiled selection set, in emission order. -/
inductive DocFields where
  | nil
  | cons (f : DocField) (rest : DocFields)
end

/-- Concatenation of compiled selection sets. -/
def DocFields.append : DocFields → DocFields → DocFields
  | .nil, gs => gs
  | .cons f fs, gs => .cons f (DocFields.append fs gs)

instance : Append DocFields := ⟨DocFields.append⟩

/-- Emptiness test for a compiled selection set. -/
def DocFields.isEmpty : DocFields → Bool
  | .nil => true
  | .cons _ _ => false

/-- Variable names referenced by argument lists anywhere in a compiled
body, in emission order. -/
def bodyVars : DocFields → List String
  | .nil => []
  | .cons (.field _ _ args sub) rest => args.map Prod.snd ++ bodyVars sub ++ bodyVars rest
  | .cons (.frag _ sub) rest => bodyVars sub ++ bodyVars rest

/-- The (field name, result key) pairs of the fields of one level, in
order; inline fragments contribute nothing at their own level. -/
def levelFieldKeys : DocFields → List (String × String)
  | .nil => []
  | .cons (.field key n _ _) rest => (n, key) :: levelFieldKeys rest
  | .cons (.frag _ _) rest => levelFieldKeys rest

/-- Number of inline fragments for type `t` at the top level of a body. -/
def fragCount (t : String) : DocFields → Nat
  | .nil => 0
  | .cons (.frag t' _) rest => (if t' = t then 1 else 0) + fragCount t rest
  | .cons (.field _ _ _ _) rest => fragCount t rest

/-- Modelled from the spec: the Compiled Operation value object — kind,
document text and the extracted name-to-value variables mapping `vars` (spec
section 3). -/
structure CompiledOperation where
  kind : OpKind
  document : String
  vars : List (String × String)
deriving DecidableEq, Repr

/-- Generated variable name for the `c`-th hoisted literal (unique across
the whole operation via the incrementing counter, spec section 4.1
step 2). -/
def vName (c : Nat) : String := ⟨'v' :: natStrAux (c + 1) c⟩

/-- Result key for the `k`-th occurrence of field name `n` within one
level: the first occurrence keeps the field name, later occurrences get
a distinct generated alias (spec section 4.1 step 3). -/
def keyFor (n : String) (k : Nat) : String :=
  if k = 0 then n else ⟨n.data ++ '_' :: natStrAux (k + 1) k⟩

/-- Plain field names of one Selection Tree level (used for `__scalar`
precedence of explicit entries, spec section 4.1 step 5). -/
def entryNames : Entries → List String
  | .nil => []
  | .cons (.plain n) _ rest => n :: entryNames rest
  | .cons _ _ rest => entryNames rest

/-- Modelled from the spec: argument hoisting (spec section 4.1 step 2) —
each literal is replaced by a reference to a freshly generated variable
and recorded as a Variable Binding with its wire type. -/
def hoistArgs (m : TypeLinkMap) (t f : String) :
    List ArgLit → Nat → (List (String × String) × List Binding × Nat)
  | [], c => ([], [], c)
  | a :: rest, c =>
    let v := vName c
    let (refs, bs, c') := hoistArgs m t f rest (c + 1)
    ((a.name, v) :: refs, ⟨v, argTypeOf m t f a.name, a.value⟩ :: bs, c')

/-- Modelled from the spec: `__scalar` expansion inserts the type's scalar
fields literally at the current level (spec section 4.1 step 5); each
inserted field goes through the same per-level occurrence keying as
explicit fields. -/
def expandScalars : List String → List String → DocFields
  | [], _ => .nil
  | n :: ns, seen => .cons (.field (keyFor n (seen.count n)) n [] .nil) (expandScalars ns (seen ++ [n]))

/-- Modelled from the spec: the depth-first Selection Tree walk of spec
section 4.1.  Arguments: the Type Link Map, the current type, the plain
field names of the whole current level (for `__scalar` precedence), the
field names already emitted at this level (for duplicate aliasing), the
variable counter and the remaining entries.  Returns the compiled fields
of the level, the Variable Bindings hoisted from it, and the advanced
counter; fails synchronously with a `CompileErr` and produces no partial
output otherwise. -/
def compileEntries (m : TypeLinkMap) :
    String → List String → List String → Nat → Entries →
    Except CompileErr (DocFields × List Binding × Nat)
  | _, _, _, c, .nil => .ok (.nil, [], c)
  | t, a, seen, c, .cons _ (.incl false) rest =>
    compileEntries m t a seen c rest
  | t, a, seen, c, .cons .scalarKey _ rest =>
    let names := (scalarsOf m t).filter (fun x => !a.contains x)
    match compileEntries m t a (seen ++ names) c rest with
    | .error e => .error e
    | .ok (fs, bs, c') => .ok (expandScalars names seen ++ fs, bs, c')
  | t, a, seen, c, .cons (.onType x) s rest =>
    if (implementersOf m t).contains x then
      match s with
      | .node _ children =>
        match compileEntries m x (entryNames children) [] c children with
        | .error e => .error e
        | .ok (sub, bs₁, c₁) =>
          if sub.isEmpty then .error (.selectionError x)
          else
            match compileEntries m t a seen c₁ rest with
            | .error e => .error e
            | .ok (fs, bs₂, c₂) => .ok (.cons (.frag x sub) fs, bs₁ ++ bs₂, c₂)
      | _ => .error (.selectionError x)
    else .error (.unknownTypeCondition x)
  | t, a, seen, c, .cons (.plain n) (.incl true) rest =>
    match compileEntries m t a (seen ++ [n]) c rest with
    | .error e => .error e
    | .ok (fs, bs, c') => .ok (.cons (.field (keyFor n (seen.count n)) n [] .nil) fs, bs, c')
  | t, a, seen, c, .cons (.plain n) (.leafArgs args) rest =>
    let (refs, bs₁, c₁) := hoistArgs m t n args c
    match compileEntries m t a (seen ++ [n]) c₁ rest with
    | .error e => .error e
    | .ok (fs, bs₂, c₂) => .ok (.cons (.field (keyFor n (seen.count n)) n refs .nil) fs, bs₁ ++ bs₂, c₂)
  | t, a, seen, c, .cons (.plain n) (.node args children) rest =>
    let childT := fieldTypeOf m t n
    let (refs, bs₁, c₁) := hoistArgs m t n args c
    match compileEntries m childT (entryNames children) [] c₁ children with
    | .error e => .error e
    | .ok (sub, bs₂, c₂) =>
      if sub.isEmpty then .error (.selectionError n)
      else
        match compileEntries m t a (seen ++ [n]) c₂ rest with
        | .error e => .error e
        | .ok (fs, bs₃, c₃) =>
          .ok (.cons (.field (keyFor n (seen.count n)) n refs sub) fs, bs₁ ++ bs₂ ++ bs₃, c₃)

/-- Wire rendering of an argument list as variable references. -/
def renderArgs : List (String × String) → String
  | [] => ""
  | args => "(" ++ String.intercalate ", " (args.map fun p => p.1 ++ ": $" ++ p.2) ++ ")"

/-- Wire rendering of a compiled selection set. -/
def renderFields : DocFields → String
  | .nil => ""
  | .cons (.field key n args sub) rest =>
    (if key = n then "" else key ++ ": ") ++ n ++ renderArgs args ++
    (if sub.isEmpty then "" else " \x7b " ++ renderFields sub ++ " \x7d") ++
    (if rest.isEmpty then "" else " " ++ renderFields rest)
  | .cons (.frag t sub) rest =>
    "... on " ++ t ++ " \x7b " ++ renderFields sub ++ " \x7d" ++
    (if rest.isEmpty then "" else " " ++ renderFields rest)

/-- Wire rendering of the declared-variable list. -/
def renderVarDecls (bs : List Binding) : String :=
  if bs.isEmpty then ""
  else " (" ++ String.intercalate ", " (bs.map fun b => "$" ++ b.name ++ ": " ++ b.wireType) ++ ")"

/-- Assembled document: operation keyword, declared variables, body. -/
def assembleDocument (k : OpKind) (fs : DocFields) (bs : List Binding) : String :=
  kindKeyword k ++ renderVarDecls bs ++ " \x7b " ++ renderFields fs ++ " \x7d"

/-- The Compiled Operation assembled from a compiled body and bindings. -/
def assembleOp (k : OpKind) (fs : DocFields) (bs : List Binding) : CompiledOperation :=
  ⟨k, assembleDocument k fs bs, bs.map fun b => (b.name, b.value)⟩

/-- Modelled from the spec: the top-level compiler
`generateGraphqlOperation` (the repository exports this symbol from
`src/genql-runtime/src/index.ts` but ships no body for it): compile the
Selection Tree against the operation kind's root type and assemble the
document and variables mapping; any failure is reported synchronously
and yields no document. -/
def generateGraphqlOperation (m : TypeLinkMap) (k : OpKind) (tree : Entries) :
    Except CompileErr CompiledOperation :=
  match compileEntries m (rootTypeName k) (entryNames tree) [] 0 tree with
  | .error e => .error e
  | .ok (fs, bs, _) =>
    if fs.isEmpty then .error (.selectionError "empty selection")
    else .ok (assembleOp k fs bs)

/-- The generated counter-indexed variable names, `vName c` through
`vName (c + k - 1)`. -/
def varNames : Nat → Nat → List String
  | _, 0 => []
  | c, k + 1 => vName c :: varNames (c + 1) k

/-- The generated result keys for occurrences `j` through `j + k - 1` of
field name `n` within one level. -/
def keyList (n : String) : Nat → Nat → List String
  | _, 0 => []
  | j, k + 1 => keyFor n j :: keyList n (j + 1) k

/-- The result keys assigned, in order, to the occurrences of field name
`n` at the top level of a compiled body. -/
def keysOfName (n : String) (fs : DocFields) : List String :=
  ((levelFieldKeys fs).filter (fun p => p.1 == n)).map Prod.snd

/-- A falsy selection value (`false` / `0`), excluded from compilation. -/
def isFalsy : Selection → Bool
  | .incl b => !b
  | .leafArgs _ => false
  | .node _ _ => false

/-- Number of non-falsy plain selections of field name `n` in one level. -/
def plainCount (n : String) : Entries → Nat
  | .nil => 0
  | .cons (.plain n') s rest =>
    (if isFalsy s then 0 else if n' = n then 1 else 0) + plainCount n rest
  | .cons .scalarKey _ rest => plainCount n rest
  | .cons (.onType _) _ rest => plainCount n rest

/-- Modelled from the spec: the Selection Tree contains, at a position the
depth-first walk reaches, a non-falsy `on_X` type condition whose `X` is
not a recorded implementer of the enclosing level's type. -/
inductive HasBadCond (m : TypeLinkMap) : String → Entries → Prop where
  | hereBad (t x : String) (s : Selection) (rest : Entries) :
      isFalsy s = false → (implementersOf m t).contains x = false →
      HasBadCond m t (.cons (.onType x) s rest)
  | inFrag (t x : String) (args : List ArgLit) (children rest : Entries) :
      (implementersOf m t).contains x = true →
      HasBadCond m x children →
      HasBadCond m t (.cons (.onType x) (.node args children) rest)
  | inNode (t n : String) (args : List ArgLit) (children rest : Entries) :
      HasBadCond m (fieldTypeOf m t n) children →
      HasBadCond m t (.cons (.plain n) (.node args children) rest)
  | inRest (t : String) (k : FieldKey) (s : Selection) (rest : Entries) :
      HasBadCond m t rest →
      HasBadCond m t (.cons k s rest)

/-- Modelled from the spec: the big-step compilation relation underlying
`compileEntries` — one constructor per step of the walk of spec section
4.1, relating a level and a starting state to the compiled fields,
hoisted bindings and advanced counter it can produce. -/
inductive EC (m : TypeLinkMap) :
    String → List String → List String → Nat → Entries →
    DocFields → List Binding → Nat → Prop where
  | nil (t : String) (a seen : List String) (c : Nat) :
      EC m t a seen c .nil .nil [] c
  | skipFalsy (t : String) (a seen : List String) (c : Nat) (k : FieldKey)
      (s : Selection) (rest : Entries) (fs : DocFields) (bs : List Binding) (c' : Nat) :
      isFalsy s = true →
      EC m t a seen c rest fs bs c' →
      EC m t a seen c (.cons k s rest) fs bs c'
  | scalarExp (t : String) (a seen : List String) (c : Nat) (s : Selection)
      (rest : Entries) (fs : DocFields) (bs : List Binding) (c' : Nat) :
      isFalsy s = false →
      EC m t a (seen ++ (scalarsOf m t).filter (fun x => !a.contains x)) c rest fs bs c' →
      EC m t a seen c (.cons .scalarKey s rest)
        (expandScalars ((scalarsOf m t).filter (fun x => !a.contains x)) seen ++ fs) bs c'
  | fragOk (t : String) (a seen : List String) (c : Nat) (x : String)
      (args : List ArgLit) (children rest : Entries) (sub : DocFields)
      (bs1 : List Binding) (c1 : Nat) (fs : DocFields) (bs2 : List Binding) (c2 : Nat) :
      (implementersOf m t).contains x = true →
      EC m x (entryNames children) [] c children sub bs1 c1 →
      sub.isEmpty = false →
      EC m t a seen c1 rest fs bs2 c2 →
      EC m t a seen c (.cons (.onType x) (.node args children) rest)
        (.cons (.frag x sub) fs) (bs1 ++ bs2) c2
  | inclTrue (t : String) (a seen : List String) (c : Nat) (n : String)
      (rest : Entries) (fs : DocFields) (bs : List Binding) (c' : Nat) :
      EC m t a (seen ++ [n]) c rest fs bs c' →
      EC m t a seen c (.cons (.plain n) (.incl true) rest)
        (.cons (.field (keyFor n (seen.count n)) n [] .nil) fs) bs c'
  | argsLeaf (t : String) (a seen : List String) (c : Nat) (n : String)
      (args : List ArgLit) (rest : Entries) (fs : DocFields) (bs2 : List Binding) (c2 : Nat) :
      EC m t a (seen ++ [n]) (hoistArgs m t n args c).2.2 rest fs bs2 c2 →
      EC m t a seen c (.cons (.plain n) (.leafArgs args) rest)
        (.cons (.field (keyFor n (seen.count n)) n (hoistArgs m t n args c).1 .nil) fs)
        ((hoistArgs m t n args c).2.1 ++ bs2) c2
  | nodeSel (t : String) (a seen : List String) (c : Nat) (n : String)
      (args : List ArgLit) (children rest : Entries) (sub : DocFields)
      (bs2 : List Binding) (c2 : Nat) (fs : DocFields) (bs3 : List Binding) (c3 : Nat) :
      EC m (fieldTypeOf m t n) (entryNames children) [] (hoistArgs m t n args c).2.2 children sub bs2 c2 →
      sub.isEmpty = false →
      EC m t a (seen ++ [n]) c2 rest fs bs3 c3 →
      EC m t a seen c (.cons (.plain n) (.node args children) rest)
        (.cons (.field (keyFor n (seen.count n)) n (hoistArgs m t n args c).1 sub) fs)
        ((hoistArgs m t n args c).2.1 ++ bs2 ++ bs3) c3

/-- Concatenation of Selection Tree levels. -/
def Entries.append : Entries → Entries → Entries
  | .nil, es => es
  | .cons k s rest, es => .cons k s (Entries.append rest es)

instance : Append Entries := ⟨Entries.append⟩

/-- Spine length of a level (used for spine induction). -/
def spineLen : Entries → Nat
  | .nil => 0
  | .cons _ _ rest => spineLen rest + 1

/-- A Type Link Map fragment mirroring the test schema: `Query.x` has the
abstract type `X`, implemented by the concrete types `Z` and `Q`. -/
def linkMapX : TypeLinkMap :=
  { implementers := [("X", ["Z", "Q"])]
  , abstracts := [("Z", ["X"]), ("Q", ["X"])]
  , scalars := [("Z", ["w", "u"]), ("Q", ["r"])]
  , fieldTypes := [(("Query", "x"), "X"), (("X", "y"), "String")]
  , argTypes := [] }

/-- The selection `{x: {y: true, on_Z: {w: true}}}` of the C5 scenario. -/
def treeC5 : Entries :=
  .cons (.plain "x")
    (.node []
      (.cons (.plain "y") (.incl true)
        (.cons (.onType "Z") (.node [] (.cons (.plain "w") (.incl true) .nil)) .nil)))
    .nil

/-- The compiled sub-selection of field `x` in the C5 scenario. -/
def subC5 : DocFields :=
  .cons (.field "y" "y" [] .nil)
    (.cons (.frag "Z" (.cons (.field "w" "w" [] .nil) .nil)) .nil)

/-- A selection with an `on_W` condition under `x : X`, where `W` is not
an implementer of `X`. -/
def treeBadCond : Entries :=
  .cons (.plain "x")
    (.node []
      (.cons (.plain "y") (.incl true)
        (.cons (.onType "W") (.node [] (.cons (.plain "w") (.incl true) .nil)) .nil)))
    .nil

/-- The falsy-exclusion selection of the test suite:
`{coordinates: {x: false, y: true}}`. -/
def treeFalsy : Entries :=
  .cons (.plain "coordinates")
    (.node []
      (.cons (.plain "x") (.incl false)
        (.cons (.plain "y") (.incl true) .nil)))
    .nil

/-- The duplicate-field selection `{a(f: 1), a(f: 2)}`: one field name
selected twice at the same level with different arguments. -/
def treeDup : Entries :=
  .cons (.plain "a") (.leafArgs [⟨"f", "1"⟩])
    (.cons (.plain "a") (.leafArgs [⟨"f", "2"⟩]) .nil)

/-- The compiled fields of `treeDup`. -/
def dupFields : DocFields :=
  .cons (.field "a" "a" [("f", "v0")] .nil)
    (.cons (.field "a_1" "a" [("f", "v1")] .nil) .nil)

/-- The bindings hoisted from `treeDup`. -/
def dupBinds : List Binding :=
  [⟨"v0", "String", "1"⟩, ⟨"v1", "String", "2"⟩]

/-- A one-field selection used to witness determinism. -/
def treeOne : Entries := .cons (.plain "u") (.incl true) .nil

/-- The compiled fields of `treeOne`. -/
def oneFields : DocFields := .cons (.field "u" "u" [] .nil) .nil

/-- Modelled from the spec: `OpCompiles m k tree op` holds when the
compiler can produce the Compiled Operation `op` from the Selection Tree
`tree` for operation kind `k` — a derivation of the big-step relation
for the root level, a non-empty body, and the assembled document. -/
def OpCompiles (m : TypeLinkMap) (k : OpKind) (tree : Entries) (op : CompiledOperation) : Prop :=
  ∃ fs bs c', EC m (rootTypeName k) (entryNames tree) [] 0 tree fs bs c' ∧
    fs.isEmpty = false ∧ op = assembleOp k fs bs

/-- Modelled from the spec: transport-level failure; the repository ships
no transport implementation under `src/`, so the batching flush is
modelled from spec section 4.2.  The batch-fatal case is the
response/request length mismatch. -/
inductive TransportErr where
  | batchLengthMismatch
deriving DecidableEq, Repr

/-- Outcome of one batching flush: the outbound requests issued (each
carrying an ordered array of operations) and the per-call results. -/
structure BatchOutcome where
  requests : List (List String)
  results : List (Except TransportErr String)
deriving Repr

/-- Modelled from the spec: the batching flush of spec section 4.2 — the
calls queued within one flush window are sent as a single outbound
request carrying the ordered array of operations; the ordered response
array is demultiplexed back to the pending calls by position; a length
mismatch is fatal for every pending entry of the flush. -/
def flushBatch (server : List String → List String) (pending : List String) : BatchOutcome :=
  let resp := server pending
  { requests := [pending]
  , results :=
      if resp.length = pending.length then resp.map Except.ok
      else pending.map fun _ => .error .batchLengthMismatch }

/-- Modelled from the spec: a trace event of the non-batching transport —
one fresh header evaluation and one dispatch per call, in order; the
dispatch of call `i` carries the headers produced by the `i`-th header
invocation. -/
inductive TEvent where
  | headerEval (i : Nat) (headers : List (String × String))
  | dispatch (i : Nat) (headers : List (String × String)) (op : String)
deriving DecidableEq, Repr

/-- Modelled from the spec: non-batching execution of a list of calls —
for every call the header function is invoked fresh (spec section 4.2),
then the operation is dispatched with the resolved headers. -/
def runSequential (hf : Nat → List (String × String)) : Nat → List String → List TEvent
  | _, [] => []
  | i, op :: rest =>
    .headerEval i (hf i) :: .dispatch i (hf i) op :: runSequential hf (i + 1) rest

/-- Header-evaluation events. -/
def isHeaderEval : TEvent → Bool
  | .headerEval _ _ => true
  | _ => false

/-- Strict precedence of two events in a trace. -/
def precedes (e1 e2 : TEvent) (tr : List TEvent) : Prop :=
  ∃ l1 l2 l3, tr = l1 ++ e1 :: l2 ++ e2 :: l3

/-- Modelled from the spec: an input event of the Subscription Client —
a `subscribe` call, an `unsubscribe` for a correlation id, or an inbound
data message for a correlation id. -/
inductive SubEvent where
  | subscribe
  | unsubscribe (id : Nat)
  | dataMsg (id : Nat)
deriving DecidableEq, Repr

/-- Modelled from the spec: an observable action of the Subscription
Client — resolving the connection headers, establishing the connection,
the `start`/`stop` control messages, and delivery to an observer's
`next` callback. -/
inductive SubAction where
  | headerResolve
  | connect
  | startMsg (id : Nat)
  | stopMsg (id : Nat)
  | next (id : Nat)
deriving DecidableEq, Repr

/-- Modelled from the spec: Subscription Client state — the fresh
correlation-id counter, the registration table (ids with an attached
observer), and whether the single persistent connection is established. -/
structure SubState where
  nextId : Nat
  registered : List Nat
  connected : Bool
deriving DecidableEq, Repr

/-- The initial Subscription Client state: disconnected, no registrations. -/
def initSubState : SubState := ⟨0, [], false⟩

/-- Modelled from the spec: one step of the Subscription Client (spec
section 4.3).  `subscribe` allocates a fresh correlation id, resolves
headers and connects if this is the first use of the connection, and
sends `start`; `unsubscribe` sends `stop` and deregisters locally
immediately; an inbound data message is dispatched to the registered
observer of its id, and dropped when no observer is registered. -/
def subStep : SubState → SubEvent → SubState × List SubAction
  | s, .subscribe =>
    (⟨s.nextId + 1, s.nextId :: s.registered, true⟩,
      (if s.connected then [] else [.headerResolve, .connect]) ++ [.startMsg s.nextId])
  | s, .unsubscribe i => (⟨s.nextId, s.registered.erase i, s.connected⟩, [.stopMsg i])
  | s, .dataMsg i => (s, if i ∈ s.registered then [.next i] else [])

/-- Run the Subscription Client over a list of events, collecting the
actions in order. -/
def subRun : SubState → List SubEvent → SubState × List SubAction
  | s, [] => (s, [])
  | s, e :: evs =>
    let (s1, as1) := subStep s e
    let (s2, as2) := subRun s1 evs
    (s2, as1 ++ as2)

/-- Registration-table invariant: registered ids are pairwise distinct
and below the fresh-id counter. -/
def RegInv (s : SubState) : Prop :=
  s.registered.Nodup ∧ ∀ j ∈ s.registered, j < s.nextId

/-- A header function returning a fresh token per invocation. -/
def hfFresh : Nat → List (String × String) := fun i => [("auth", natStr i)]

/-- Header-resolution actions. -/
def isHeaderResolve : SubAction → Bool
  | .headerResolve => true
  | _ => false

/-- Observer `next` deliveries. -/
def isNextAction : SubAction → Bool
  | .next _ => true
  | _ => false

/-- Subscribe events. -/
def isSubscribeEv : SubEvent → Bool
  | .subscribe => true
  | _ => false

/-! ## Theorems -/

theorem charVal_digitChar : ∀ d, d < 10 → charVal (Nat.digitChar d) = d := by decide

theorem decodeDigits_append_singleton (xs : List Char) (c : Char) :
    decodeDigits (xs ++ [c]) = decodeDigits xs * 10 + charVal c := by
  simp [decodeDigits, List.foldl_append]

theorem decode_natStrAux : ∀ fuel n, n ≤ fuel → decodeDigits (natStrAux fuel n) = n := by
  intro fuel
  induction fuel with
  | zero =>
    intro n hn
    interval_cases n
    simp [natStrAux, decodeDigits]
  | succ fuel ih =>
    intro n hn
    by_cases h10 : n < 10
    · simp [natStrAux, h10, decodeDigits, List.foldl, charVal_digitChar n h10]
    · have hdiv : n / 10 ≤ fuel := by
        have : n / 10 < n := Nat.div_lt_self (by omega) (by omega)
        omega
      have hmod : n % 10 < 10 := Nat.mod_lt _ (by omega)
      simp only [natStrAux, if_neg h10, decodeDigits_append_singleton, ih _ hdiv,
        charVal_digitChar _ hmod]
      omega

theorem natStrAux_inj {a b : Nat} (h : natStrAux (a + 1) a = natStrAux (b + 1) b) : a = b := by
  have ha := decode_natStrAux (a + 1) a (by omega)
  have hb := decode_natStrAux (b + 1) b (by omega)
  rw [← ha, ← hb, h]

theorem vName_inj {a b : Nat} (h : vName a = vName b) : a = b := by
  have hd := congrArg String.data h
  simp only [vName] at hd
  exact natStrAux_inj (by injection hd)

theorem natStrAux_ne_nil (n : Nat) : natStrAux (n + 1) n ≠ [] := by
  by_cases h10 : n < 10 <;> simp [natStrAux, h10]

theorem keyFor_inj (n : String) : ∀ {j k : Nat}, keyFor n j = keyFor n k → j = k := by
  intro j k h
  match j, k with
  | 0, 0 => rfl
  | 0, k + 1 =>
    exfalso
    simp only [keyFor, if_pos rfl, if_neg (Nat.succ_ne_zero k)] at h
    have hd := congrArg String.data h
    simp only at hd
    have hl := congrArg List.length hd
    simp at hl
  | j + 1, 0 =>
    exfalso
    simp only [keyFor, if_pos rfl, if_neg (Nat.succ_ne_zero j)] at h
    have hd := congrArg String.data h
    simp only at hd
    have hl := congrArg List.length hd
    simp at hl
  | j + 1, k + 1 =>
    simp only [keyFor, if_neg (Nat.succ_ne_zero j), if_neg (Nat.succ_ne_zero k)] at h
    have hd := congrArg String.data h
    simp only at hd
    have h2 := List.append_cancel_left hd
    have h3 : natStrAux (j + 1 + 1) (j + 1) = natStrAux (k + 1 + 1) (k + 1) := by
      injection h2
    have := natStrAux_inj h3
    omega

theorem varNames_add : ∀ p q c, varNames c (p + q) = varNames c p ++ varNames (c + p) q := by
  intro p
  induction p with
  | zero => intro q c; simp [varNames]
  | succ p ih =>
    intro q c
    have : p + 1 + q = (p + q) + 1 := by omega
    rw [this]
    simp only [varNames, ih, List.cons_append]
    have : c + (p + 1) = c + 1 + p := by omega
    rw [this]

theorem mem_varNames : ∀ k c s, s ∈ varNames c k → ∃ i, c ≤ i ∧ i < c + k ∧ s = vName i := by
  intro k
  induction k with
  | zero => intro c s h; simp [varNames] at h
  | succ k ih =>
    intro c s h
    simp only [varNames, List.mem_cons] at h
    rcases h with h | h
    · exact ⟨c, by omega, by omega, h⟩
    · obtain ⟨i, h1, h2, h3⟩ := ih (c + 1) s h
      exact ⟨i, by omega, by omega, h3⟩

theorem varNames_nodup : ∀ k c, (varNames c k).Nodup := by
  intro k
  induction k with
  | zero => intro c; simp [varNames]
  | succ k ih =>
    intro c
    simp only [varNames, List.nodup_cons]
    refine ⟨fun hmem => ?_, ih (c + 1)⟩
    obtain ⟨i, h1, _, h3⟩ := mem_varNames k (c + 1) _ hmem
    have := vName_inj h3
    omega

theorem keyList_add (n : String) : ∀ p q j, keyList n j (p + q) = keyList n j p ++ keyList n (j + p) q := by
  intro p
  induction p with
  | zero => intro q j; simp [keyList]
  | succ p ih =>
    intro q j
    have : p + 1 + q = (p + q) + 1 := by omega
    rw [this]
    simp only [keyList, ih, List.cons_append]
    have : j + (p + 1) = j + 1 + p := by omega
    rw [this]

theorem mem_keyList (n : String) : ∀ k j s, s ∈ keyList n j k → ∃ i, j ≤ i ∧ i < j + k ∧ s = keyFor n i := by
  intro k
  induction k with
  | zero => intro j s h; simp [keyList] at h
  | succ k ih =>
    intro j s h
    simp only [keyList, List.mem_cons] at h
    rcases h with h | h
    · exact ⟨j, by omega, by omega, h⟩
    · obtain ⟨i, h1, h2, h3⟩ := ih (j + 1) s h
      exact ⟨i, by omega, by omega, h3⟩

theorem keyList_nodup (n : String) : ∀ k j, (keyList n j k).Nodup := by
  intro k
  induction k with
  | zero => intro j; simp [keyList]
  | succ k ih =>
    intro j
    simp only [keyList, List.nodup_cons]
    refine ⟨fun hmem => ?_, ih (j + 1)⟩
    obtain ⟨i, h1, _, h3⟩ := mem_keyList n k (j + 1) _ hmem
    have := keyFor_inj n h3
    omega

@[simp] theorem docFields_append_def (fs gs : DocFields) : DocFields.append fs gs = fs ++ gs := rfl

@[simp] theorem docFields_nil_append (gs : DocFields) : DocFields.nil ++ gs = gs := rfl

@[simp] theorem docFields_cons_append (f : DocField) (fs gs : DocFields) :
    DocFields.cons f fs ++ gs = DocFields.cons f (fs ++ gs) := rfl

theorem bodyVars_append : ∀ fs gs : DocFields, bodyVars (fs ++ gs) = bodyVars fs ++ bodyVars gs := by
  intro fs
  induction fs using bodyVars.induct with
  | case1 => intro gs; simp [bodyVars]
  | case2 _ _ args sub rest ih1 ih2 => intro gs; simp [bodyVars, ih2]
  | case3 _ sub rest ih1 ih2 => intro gs; simp [bodyVars, ih2]

theorem bodyVars_expandScalars : ∀ ns seen, bodyVars (expandScalars ns seen) = [] := by
  intro ns
  induction ns with
  | nil => intro seen; simp [expandScalars, bodyVars]
  | cons n ns ih => intro seen; simp [expandScalars, bodyVars, ih]

theorem hoistArgs_spec (m : TypeLinkMap) (t f : String) :
    ∀ args (c : Nat) refs bs c', hoistArgs m t f args c = (refs, bs, c') →
      refs.map Prod.snd = bs.map Binding.name ∧
      bs.map Binding.name = varNames c bs.length ∧
      c' = c + bs.length := by
  intro args
  induction args with
  | nil =>
    intro c refs bs c' h
    simp only [hoistArgs, Prod.mk.injEq] at h
    obtain ⟨rfl, rfl, rfl⟩ := h
    simp [varNames]
  | cons a args ih =>
    intro c refs bs c' h
    simp only [hoistArgs] at h
    rcases hrec : hoistArgs m t f args (c + 1) with ⟨refs1, bs1, c1⟩
    rw [hrec] at h
    simp only [Prod.mk.injEq] at h
    obtain ⟨rfl, rfl, rfl⟩ := h
    obtain ⟨h1, h2, h3⟩ := ih (c + 1) refs1 bs1 c1 hrec
    refine ⟨?_, ?_, ?_⟩
    · simp [h1]
    · simp only [List.map_cons, List.length_cons, varNames, h2]
    · simp only [List.length_cons]
      omega

/-- Length of a generated-name list. -/
theorem varNames_length : ∀ k c, (varNames c k).length = k := by
  intro k
  induction k with
  | zero => intro c; simp [varNames]
  | succ k ih => intro c; simp [varNames, ih]

theorem compileEntries_vars (m : TypeLinkMap) :
    ∀ t a seen c es, ∀ fs bs c', compileEntries m t a seen c es = .ok (fs, bs, c') →
      bodyVars fs = bs.map Binding.name ∧
      bs.map Binding.name = varNames c bs.length ∧
      c' = c + bs.length := by
  intro t a seen c es
  induction t, a, seen, c, es using compileEntries.induct (m := m) with
  | case1 t a seen c =>
    intro fs bs c' h
    simp only [compileEntries, Except.ok.injEq, Prod.mk.injEq] at h
    obtain ⟨rfl, rfl, rfl⟩ := h
    simp [bodyVars, varNames]
  | case2 t a seen c key rest ih =>
    intro fs bs c' h
    simp only [compileEntries] at h
    exact ih fs bs c' h
  | case3 t a seen c sel rest hne names e hrest ih =>
    intro fs bs c' h
    simp only [compileEntries, hrest] at h
    exact Except.noConfusion h
  | case4 t a seen c sel rest hne names fs1 bs1 c1 hrest ih =>
    intro fs bs c' h
    obtain ⟨hv, hn, hc⟩ := ih fs1 bs1 c1 hrest
    simp only [compileEntries, hrest, Except.ok.injEq, Prod.mk.injEq] at h
    obtain ⟨rfl, rfl, rfl⟩ := h
    refine ⟨?_, hn, hc⟩
    rw [bodyVars_append, bodyVars_expandScalars, List.nil_append, hv]
  | case5 t a seen c x rest hcont args children e hchild hne2 ih =>
    intro fs bs c' h
    simp only [compileEntries] at h
    rw [if_pos hcont] at h
    simp only [hchild] at h
    exact Except.noConfusion h
  | case6 t a seen c x rest hcont args children sub bs1 c1 hchild hempty hne2 ih =>
    intro fs bs c' h
    simp only [compileEntries] at h
    rw [if_pos hcont] at h
    simp only [hchild, hempty, if_true] at h
    exact Except.noConfusion h
  | case7 t a seen c x rest hcont args children sub bs1 c1 hchild hnemp e hrest hne2 ih1 ih2 =>
    intro fs bs c' h
    simp only [compileEntries] at h
    rw [if_pos hcont] at h
    simp only [hchild] at h
    rw [if_neg hnemp] at h
    simp only [hrest] at h
    exact Except.noConfusion h
  | case8 t a seen c x rest hcont args children sub bs1 c1 hchild hnemp fs2 bs2 c2 hrest hne2 ih1 ih2 =>
    intro fs bs c' h
    obtain ⟨hv1, hn1, hc1⟩ := ih1 sub bs1 c1 hchild
    obtain ⟨hv2, hn2, hc2⟩ := ih2 fs2 bs2 c2 hrest
    simp only [compileEntries] at h
    rw [if_pos hcont] at h
    simp only [hchild] at h
    rw [if_neg hnemp] at h
    simp only [hrest, Except.ok.injEq, Prod.mk.injEq] at h
    obtain ⟨rfl, rfl, rfl⟩ := h
    refine ⟨?_, ?_, ?_⟩
    · simp only [bodyVars, hv1, hv2, List.map_append]
    · rw [List.map_append, List.length_append, varNames_add, hn1, hn2, hc1]
    · simp only [List.length_append]; omega
  | case9 t a seen c x s rest hne hcont hnode =>
    intro fs bs c' h
    cases s with
    | node args children => exact absurd rfl (hnode args children)
    | incl b =>
      cases b with
      | false => exact absurd rfl hne
      | true =>
        simp only [compileEntries] at h
        rw [if_pos hcont] at h
        exact Except.noConfusion h
    | leafArgs args =>
      simp only [compileEntries] at h
      rw [if_pos hcont] at h
      exact Except.noConfusion h
  | case10 t a seen c x s rest hne hncont =>
    intro fs bs c' h
    cases s with
    | node args children =>
      simp only [compileEntries] at h
      rw [if_neg hncont] at h
      exact Except.noConfusion h
    | incl b =>
      cases b with
      | false => exact absurd rfl hne
      | true =>
        simp only [compileEntries] at h
        rw [if_neg hncont] at h
        exact Except.noConfusion h
    | leafArgs args =>
      simp only [compileEntries] at h
      rw [if_neg hncont] at h
      exact Except.noConfusion h
  | case11 t a seen c n rest e hrest ih =>
    intro fs bs c' h
    simp only [compileEntries, hrest] at h
    exact Except.noConfusion h
  | case12 t a seen c n rest fs1 bs1 c1 hrest ih =>
    intro fs bs c' h
    obtain ⟨hv, hn, hc⟩ := ih fs1 bs1 c1 hrest
    simp only [compileEntries, hrest, Except.ok.injEq, Prod.mk.injEq] at h
    obtain ⟨rfl, rfl, rfl⟩ := h
    refine ⟨?_, hn, hc⟩
    simp only [bodyVars, List.map_nil, List.nil_append, hv]
  | case13 t a seen c n args rest refs bs1 c1 hh e hrest ih =>
    intro fs bs c' h
    simp only [compileEntries, hh, hrest] at h
    exact Except.noConfusion h
  | case14 t a seen c n args rest refs bs1 c1 hh fs2 bs2 c2 hrest ih =>
    intro fs bs c' h
    obtain ⟨hr, hn1, hc1⟩ := hoistArgs_spec m t n args c refs bs1 c1 hh
    obtain ⟨hv2, hn2, hc2⟩ := ih fs2 bs2 c2 hrest
    simp only [compileEntries, hh, hrest, Except.ok.injEq, Prod.mk.injEq] at h
    obtain ⟨rfl, rfl, rfl⟩ := h
    refine ⟨?_, ?_, ?_⟩
    · simp only [bodyVars, hr, hv2, List.map_append, List.nil_append, List.append_nil]
    · rw [List.map_append, List.length_append, varNames_add, hn1, hn2, hc1]
    · simp only [List.length_append]; omega
  | case15 t a seen c n args children rest childT refs bs1 c1 hh e hchild ih =>
    intro fs bs c' h
    simp only [compileEntries, hh, hchild] at h
    exact Except.noConfusion h
  | case16 t a seen c n args children rest childT refs bs1 c1 hh sub bs2 c2 hchild hempty ih =>
    intro fs bs c' h
    simp only [compileEntries, hh, hchild, hempty, if_true] at h
    exact Except.noConfusion h
  | case17 t a seen c n args children rest childT refs bs1 c1 hh sub bs2 c2 hchild hnemp e hrest ih1 ih2 =>
    intro fs bs c' h
    simp only [compileEntries, hh, hchild] at h
    rw [if_neg hnemp] at h
    simp only [hrest] at h
    exact Except.noConfusion h
  | case18 t a seen c n args children rest childT refs bs1 c1 hh sub bs2 c2 hchild hnemp fs3 bs3 c3 hrest ih1 ih2 =>
    intro fs bs c' h
    obtain ⟨hr, hn1, hc1⟩ := hoistArgs_spec m t n args c refs bs1 c1 hh
    obtain ⟨hv2, hn2, hc2⟩ := ih1 sub bs2 c2 hchild
    obtain ⟨hv3, hn3, hc3⟩ := ih2 fs3 bs3 c3 hrest
    simp only [compileEntries, hh, hchild] at h
    rw [if_neg hnemp] at h
    simp only [hrest, Except.ok.injEq, Prod.mk.injEq] at h
    obtain ⟨rfl, rfl, rfl⟩ := h
    refine ⟨?_, ?_, ?_⟩
    · simp only [bodyVars, hr, hv2, hv3, List.map_append, List.append_assoc]
    · rw [List.map_append, List.map_append, List.length_append, List.length_append,
        varNames_add, varNames_add, hn1, hn2, hn3, hc1, hc2, hc1]
      simp only [Nat.add_assoc]
    · simp only [List.length_append]; omega

theorem keyList_length (n : String) : ∀ k j, (keyList n j k).length = k := by
  intro k
  induction k with
  | zero => intro j; simp [keyList]
  | succ k ih => intro j; simp [keyList, ih]

theorem levelFieldKeys_append :
    ∀ fs gs : DocFields, levelFieldKeys (fs ++ gs) = levelFieldKeys fs ++ levelFieldKeys gs := by
  intro fs
  induction fs using levelFieldKeys.induct with
  | case1 => intro gs; simp [levelFieldKeys]
  | case2 k n args sub rest ih => intro gs; simp [levelFieldKeys, ih]
  | case3 t sub rest ih => intro gs; simp [levelFieldKeys, ih]

theorem keysOfName_append (n : String) (fs gs : DocFields) :
    keysOfName n (fs ++ gs) = keysOfName n fs ++ keysOfName n gs := by
  simp [keysOfName, levelFieldKeys_append, List.filter_append]

theorem keysOfName_nil (n : String) : keysOfName n .nil = [] := rfl

theorem keysOfName_cons_frag (n t : String) (sub rest : DocFields) :
    keysOfName n (.cons (.frag t sub) rest) = keysOfName n rest := rfl

theorem keysOfName_cons_field (n k nm : String) (args : List (String × String))
    (sub rest : DocFields) :
    keysOfName n (.cons (.field k nm args sub) rest) =
      if nm = n then k :: keysOfName n rest else keysOfName n rest := by
  simp only [keysOfName, levelFieldKeys, List.filter_cons]
  by_cases h : nm = n
  · simp [h]
  · simp [h]

theorem count_filter_not_contains (a l : List String) (n : String) (hmem : n ∈ a) :
    (l.filter (fun x => !a.contains x)).count n = 0 := by
  rw [List.count_eq_zero]
  intro hn
  rcases List.mem_filter.mp hn with ⟨-, hfilt⟩
  simp only [Bool.not_eq_true'] at hfilt
  exact absurd hmem (by simpa using hfilt)

theorem expandScalars_keys :
    ∀ (ns seen : List String) (n : String),
      keysOfName n (expandScalars ns seen) = keyList n (seen.count n) (ns.count n) := by
  intro ns
  induction ns with
  | nil => intro seen n; simp [expandScalars, keysOfName, levelFieldKeys, keyList]
  | cons n0 ns ih =>
    intro seen n
    simp only [expandScalars, keysOfName_cons_field]
    by_cases h : n0 = n
    · subst h
      rw [if_pos rfl]
      rw [ih (seen ++ [n0]) n0]
      have hcnt : (seen ++ [n0]).count n0 = seen.count n0 + 1 := by
        simp [List.count_append]
      rw [hcnt]
      have hcnt2 : (n0 :: ns).count n0 = ns.count n0 + 1 := by
        simp [List.count_cons]
      rw [hcnt2]
      rfl
    · rw [if_neg h]
      rw [ih (seen ++ [n0]) n]
      have hcnt : (seen ++ [n0]).count n = seen.count n := by
        simp [List.count_append, List.count_cons, h]
      have hcnt2 : (n0 :: ns).count n = ns.count n := by
        simp [List.count_cons, h]
      rw [hcnt, hcnt2]

theorem expandScalars_keys_length (ns seen : List String) (n : String) :
    (keysOfName n (expandScalars ns seen)).length = ns.count n := by
  rw [expandScalars_keys, keyList_length]

/-- One-step unfolding of the occurrence-key list from an emitted head key. -/
theorem keyList_cons_len (n : String) (j : Nat) (l : List String)
    (h : l = keyList n (j + 1) l.length) :
    keyFor n j :: l = keyList n j (keyFor n j :: l).length := by
  simp only [List.length_cons]
  rw [keyList]
  rw [← h]

/-- Key-assignment invariant: at every level, the keys given to the
occurrences of each field name are the consecutive occurrence keys
starting from the number of times the name was already emitted, and the
number of occurrences equals the number of non-falsy plain selections of
that name (for names of the level, which `__scalar` expansion never
duplicates). -/
theorem compileEntries_keys (m : TypeLinkMap) :
    ∀ t a seen c es, ∀ fs bs c', compileEntries m t a seen c es = .ok (fs, bs, c') →
      (∀ n, keysOfName n fs = keyList n (seen.count n) (keysOfName n fs).length) ∧
      (∀ n, n ∈ a → (keysOfName n fs).length = plainCount n es) := by
  intro t a seen c es
  induction t, a, seen, c, es using compileEntries.induct (m := m) with
  | case1 t a seen c =>
    intro fs bs c' h
    simp only [compileEntries, Except.ok.injEq, Prod.mk.injEq] at h
    obtain ⟨rfl, rfl, rfl⟩ := h
    exact ⟨fun n => rfl, fun n _ => rfl⟩
  | case2 t a seen c key rest ih =>
    intro fs bs c' h
    simp only [compileEntries] at h
    obtain ⟨h1, h2⟩ := ih fs bs c' h
    refine ⟨h1, fun n hn => ?_⟩
    cases key <;> simpa [plainCount, isFalsy] using h2 n hn
  | case3 t a seen c sel rest hne names e hrest ih =>
    intro fs bs c' h
    simp only [compileEntries, hrest] at h
    exact Except.noConfusion h
  | case4 t a seen c sel rest hne names fs1 bs1 c1 hrest ih =>
    intro fs bs c' h
    obtain ⟨h1, h2⟩ := ih fs1 bs1 c1 hrest
    simp only [compileEntries, hrest, Except.ok.injEq, Prod.mk.injEq] at h
    obtain ⟨rfl, rfl, rfl⟩ := h
    constructor
    · intro n
      rw [keysOfName_append, expandScalars_keys]
      have hlen : (keyList n (seen.count n) (names.count n) ++ keysOfName n fs1).length =
          names.count n + (keysOfName n fs1).length := by
        simp [keyList_length]
      rw [hlen, keyList_add]
      congr 1
      have h1n := h1 n
      rw [List.count_append] at h1n
      exact h1n
    · intro n hn
      rw [keysOfName_append]
      have hz : names.count n = 0 := count_filter_not_contains a (scalarsOf m t) n hn
      have h2n := h2 n hn
      simp only [List.length_append, expandScalars_keys_length, hz, Nat.zero_add, h2n]
      rfl
  | case5 t a seen c x rest hcont args children e hchild hne2 ih =>
    intro fs bs c' h
    simp only [compileEntries] at h
    rw [if_pos hcont] at h
    simp only [hchild] at h
    exact Except.noConfusion h
  | case6 t a seen c x rest hcont args children sub bs1 c1 hchild hempty hne2 ih =>
    intro fs bs c' h
    simp only [compileEntries] at h
    rw [if_pos hcont] at h
    simp only [hchild, hempty, if_true] at h
    exact Except.noConfusion h
  | case7 t a seen c x rest hcont args children sub bs1 c1 hchild hnemp e hrest hne2 ih1 ih2 =>
    intro fs bs c' h
    simp only [compileEntries] at h
    rw [if_pos hcont] at h
    simp only [hchild] at h
    rw [if_neg hnemp] at h
    simp only [hrest] at h
    exact Except.noConfusion h
  | case8 t a seen c x rest hcont args children sub bs1 c1 hchild hnemp fs2 bs2 c2 hrest hne2 ih1 ih2 =>
    intro fs bs c' h
    obtain ⟨h1, h2⟩ := ih2 fs2 bs2 c2 hrest
    simp only [compileEntries] at h
    rw [if_pos hcont] at h
    simp only [hchild] at h
    rw [if_neg hnemp] at h
    simp only [hrest, Except.ok.injEq, Prod.mk.injEq] at h
    obtain ⟨rfl, rfl, rfl⟩ := h
    refine ⟨fun n => ?_, fun n hn => ?_⟩
    · rw [keysOfName_cons_frag]
      exact h1 n
    · rw [keysOfName_cons_frag]
      simpa [plainCount] using h2 n hn
  | case9 t a seen c x s rest hne hcont hnode =>
    intro fs bs c' h
    cases s with
    | node args children => exact absurd rfl (hnode args children)
    | incl b =>
      cases b with
      | false => exact absurd rfl hne
      | true =>
        simp only [compileEntries] at h
        rw [if_pos hcont] at h
        exact Except.noConfusion h
    | leafArgs args =>
      simp only [compileEntries] at h
      rw [if_pos hcont] at h
      exact Except.noConfusion h
  | case10 t a seen c x s rest hne hncont =>
    intro fs bs c' h
    cases s with
    | node args children =>
      simp only [compileEntries] at h
      rw [if_neg hncont] at h
      exact Except.noConfusion h
    | incl b =>
      cases b with
      | false => exact absurd rfl hne
      | true =>
        simp only [compileEntries] at h
        rw [if_neg hncont] at h
        exact Except.noConfusion h
    | leafArgs args =>
      simp only [compileEntries] at h
      rw [if_neg hncont] at h
      exact Except.noConfusion h
  | case11 t a seen c n rest e hrest ih =>
    intro fs bs c' h
    simp only [compileEntries, hrest] at h
    exact Except.noConfusion h
  | case12 t a seen c n rest fs1 bs1 c1 hrest ih =>
    intro fs bs c' h
    obtain ⟨h1, h2⟩ := ih fs1 bs1 c1 hrest
    simp only [compileEntries, hrest, Except.ok.injEq, Prod.mk.injEq] at h
    obtain ⟨rfl, rfl, rfl⟩ := h
    refine ⟨fun n' => ?_, fun n' hn' => ?_⟩
    · rw [keysOfName_cons_field]
      by_cases hcase : n = n'
      · subst hcase
        rw [if_pos rfl]
        have h1n := h1 n
        have hcnt : (seen ++ [n]).count n = seen.count n + 1 := by
          simp [List.count_append]
        rw [hcnt] at h1n
        exact keyList_cons_len n (List.count n seen) _ h1n
      · rw [if_neg hcase]
        have h1n := h1 n'
        have hcnt : (seen ++ [n]).count n' = seen.count n' := by
          simp [List.count_append, List.count_cons, hcase]
        rw [hcnt] at h1n
        exact h1n
    · rw [keysOfName_cons_field]
      have h2n := h2 n' hn'
      by_cases hcase : n = n'
      · subst hcase
        simp [plainCount, isFalsy, h2n]
        omega
      · simp [hcase, plainCount, isFalsy, h2n]
  | case13 t a seen c n args rest refs bs1 c1 hh e hrest ih =>
    intro fs bs c' h
    simp only [compileEntries, hh, hrest] at h
    exact Except.noConfusion h
  | case14 t a seen c n args rest refs bs1 c1 hh fs2 bs2 c2 hrest ih =>
    intro fs bs c' h
    obtain ⟨h1, h2⟩ := ih fs2 bs2 c2 hrest
    simp only [compileEntries, hh, hrest, Except.ok.injEq, Prod.mk.injEq] at h
    obtain ⟨rfl, rfl, rfl⟩ := h
    refine ⟨fun n' => ?_, fun n' hn' => ?_⟩
    · rw [keysOfName_cons_field]
      by_cases hcase : n = n'
      · subst hcase
        rw [if_pos rfl]
        have h1n := h1 n
        have hcnt : (seen ++ [n]).count n = seen.count n + 1 := by
          simp [List.count_append]
        rw [hcnt] at h1n
        exact keyList_cons_len n (List.count n seen) _ h1n
      · rw [if_neg hcase]
        have h1n := h1 n'
        have hcnt : (seen ++ [n]).count n' = seen.count n' := by
          simp [List.count_append, List.count_cons, hcase]
        rw [hcnt] at h1n
        exact h1n
    · rw [keysOfName_cons_field]
      have h2n := h2 n' hn'
      by_cases hcase : n = n'
      · subst hcase
        simp [plainCount, isFalsy, h2n]
        omega
      · simp [hcase, plainCount, isFalsy, h2n]
  | case15 t a seen c n args children rest childT refs bs1 c1 hh e hchild ih =>
    intro fs bs c' h
    simp only [compileEntries, hh, hchild] at h
    exact Except.noConfusion h
  | case16 t a seen c n args children rest childT refs bs1 c1 hh sub bs2 c2 hchild hempty ih =>
    intro fs bs c' h
    simp only [compileEntries, hh, hchild, hempty, if_true] at h
    exact Except.noConfusion h
  | case17 t a seen c n args children rest childT refs bs1 c1 hh sub bs2 c2 hchild hnemp e hrest ih1 ih2 =>
    intro fs bs c' h
    simp only [compileEntries, hh, hchild] at h
    rw [if_neg hnemp] at h
    simp only [hrest] at h
    exact Except.noConfusion h
  | case18 t a seen c n args children rest childT refs bs1 c1 hh sub bs2 c2 hchild hnemp fs3 bs3 c3 hrest ih1 ih2 =>
    intro fs bs c' h
    obtain ⟨h1, h2⟩ := ih2 fs3 bs3 c3 hrest
    simp only [compileEntries, hh, hchild] at h
    rw [if_neg hnemp] at h
    simp only [hrest, Except.ok.injEq, Prod.mk.injEq] at h
    obtain ⟨rfl, rfl, rfl⟩ := h
    refine ⟨fun n' => ?_, fun n' hn' => ?_⟩
    · rw [keysOfName_cons_field]
      by_cases hcase : n = n'
      · subst hcase
        rw [if_pos rfl]
        have h1n := h1 n
        have hcnt : (seen ++ [n]).count n = seen.count n + 1 := by
          simp [List.count_append]
        rw [hcnt] at h1n
        exact keyList_cons_len n (List.count n seen) _ h1n
      · rw [if_neg hcase]
        have h1n := h1 n'
        have hcnt : (seen ++ [n]).count n' = seen.count n' := by
          simp [List.count_append, List.count_cons, hcase]
        rw [hcnt] at h1n
        exact h1n
    · rw [keysOfName_cons_field]
      have h2n := h2 n' hn'
      by_cases hcase : n = n'
      · subst hcase
        simp [plainCount, isFalsy, h2n]
        omega
      · simp [hcase, plainCount, isFalsy, h2n]

theorem hasBadCond_no_ok {m : TypeLinkMap} {t : String} {es : Entries}
    (hbc : HasBadCond m t es) :
    ∀ a seen c, (compileEntries m t a seen c es).isOk = false := by
  induction hbc with
  | hereBad t x s rest hf hcont =>
    intro a seen c
    have hncont : ¬((implementersOf m t).contains x = true) := by
      intro hc; rw [hcont] at hc; exact Bool.noConfusion hc
    cases s with
    | incl b =>
      cases b with
      | false => simp [isFalsy] at hf
      | true => simp only [compileEntries]; rw [if_neg hncont]; rfl
    | leafArgs args => simp only [compileEntries]; rw [if_neg hncont]; rfl
    | node args children => simp only [compileEntries]; rw [if_neg hncont]; rfl
  | inFrag t x args children rest hcont hbad ih =>
    intro a seen c
    simp only [compileEntries]
    rw [if_pos hcont]
    rcases h : compileEntries m x (entryNames children) [] c children with e | v
    · rfl
    · have := ih (entryNames children) [] c
      rw [h] at this
      exact absurd this (by simp [Except.isOk, Except.toBool])
  | inNode t n args children rest hbad ih =>
    intro a seen c
    simp only [compileEntries]
    rcases hh : hoistArgs m t n args c with ⟨refs, bs1, c1⟩
    rcases h : compileEntries m (fieldTypeOf m t n) (entryNames children) [] c1 children with e | v
    · rfl
    · have := ih (entryNames children) [] c1
      rw [h] at this
      exact absurd this (by simp [Except.isOk, Except.toBool])
  | inRest t k s rest hbad ih =>
    intro a seen c
    by_cases hf : isFalsy s = true
    · cases s with
      | incl b =>
        cases b with
        | true => simp [isFalsy] at hf
        | false => simp only [compileEntries]; exact ih a seen c
      | leafArgs args => simp [isFalsy] at hf
      | node args children => simp [isFalsy] at hf
    · cases k with
      | scalarKey =>
        cases s with
        | incl b =>
          cases b with
          | false => simp [isFalsy] at hf
          | true =>
            simp only [compileEntries]
            rcases h : compileEntries m t a
                (seen ++ (scalarsOf m t).filter (fun x => !a.contains x)) c rest with e | v
            · rfl
            · have := ih a (seen ++ (scalarsOf m t).filter (fun x => !a.contains x)) c
              rw [h] at this
              exact absurd this (by simp [Except.isOk, Except.toBool])
        | leafArgs args =>
          simp only [compileEntries]
          rcases h : compileEntries m t a
              (seen ++ (scalarsOf m t).filter (fun x => !a.contains x)) c rest with e | v
          · rfl
          · have := ih a (seen ++ (scalarsOf m t).filter (fun x => !a.contains x)) c
            rw [h] at this
            exact absurd this (by simp [Except.isOk, Except.toBool])
        | node args children =>
          simp only [compileEntries]
          rcases h : compileEntries m t a
              (seen ++ (scalarsOf m t).filter (fun x => !a.contains x)) c rest with e | v
          · rfl
          · have := ih a (seen ++ (scalarsOf m t).filter (fun x => !a.contains x)) c
            rw [h] at this
            exact absurd this (by simp [Except.isOk, Except.toBool])
      | onType x =>
        by_cases hcont : (implementersOf m t).contains x = true
        · cases s with
          | incl b =>
            cases b with
            | false => simp [isFalsy] at hf
            | true => simp only [compileEntries]; rw [if_pos hcont]; rfl
          | leafArgs args => simp only [compileEntries]; rw [if_pos hcont]; rfl
          | node args children =>
            simp only [compileEntries]
            rw [if_pos hcont]
            rcases h : compileEntries m x (entryNames children) [] c children with e | v
            · rfl
            · rcases v with ⟨sub, bs1, c1⟩
              dsimp only
              by_cases hemp : sub.isEmpty = true
              · rw [if_pos hemp]; rfl
              · rw [if_neg hemp]
                rcases h2 : compileEntries m t a seen c1 rest with e | v2
                · rfl
                · have := ih a seen c1
                  rw [h2] at this
                  exact absurd this (by simp [Except.isOk, Except.toBool])
        · cases s with
          | incl b =>
            cases b with
            | false => simp [isFalsy] at hf
            | true => simp only [compileEntries]; rw [if_neg hcont]; rfl
          | leafArgs args => simp only [compileEntries]; rw [if_neg hcont]; rfl
          | node args children => simp only [compileEntries]; rw [if_neg hcont]; rfl
      | plain n =>
        cases s with
        | incl b =>
          cases b with
          | false => simp [isFalsy] at hf
          | true =>
            simp only [compileEntries]
            rcases h : compileEntries m t a (seen ++ [n]) c rest with e | v
            · rfl
            · have := ih a (seen ++ [n]) c
              rw [h] at this
              exact absurd this (by simp [Except.isOk, Except.toBool])
        | leafArgs args =>
          simp only [compileEntries]
          rcases hh : hoistArgs m t n args c with ⟨refs, bs1, c1⟩
          rcases h : compileEntries m t a (seen ++ [n]) c1 rest with e | v
          · rfl
          · have := ih a (seen ++ [n]) c1
            rw [h] at this
            exact absurd this (by simp [Except.isOk, Except.toBool])
        | node args children =>
          simp only [compileEntries]
          rcases hh : hoistArgs m t n args c with ⟨refs, bs1, c1⟩
          rcases h : compileEntries m (fieldTypeOf m t n) (entryNames children) [] c1 children with e | v
          · rfl
          · rcases v with ⟨sub, bs2, c2⟩
            dsimp only
            by_cases hemp : sub.isEmpty = true
            · rw [if_pos hemp]; rfl
            · rw [if_neg hemp]
              rcases h2 : compileEntries m t a (seen ++ [n]) c2 rest with e | v2
              · rfl
              · have := ih a (seen ++ [n]) c2
                rw [h2] at this
                exact absurd this (by simp [Except.isOk, Except.toBool])

/-- The big-step relation is a function of its inputs: any two
derivations for the same state and entries produce identical fields,
bindings and counter. -/
theorem EC_det {m : TypeLinkMap} :
    ∀ {t : String} {a seen : List String} {c : Nat} {es : Entries}
      {fs1 : DocFields} {bs1 : List Binding} {c1 : Nat},
      EC m t a seen c es fs1 bs1 c1 →
      ∀ {fs2 : DocFields} {bs2 : List Binding} {c2 : Nat},
        EC m t a seen c es fs2 bs2 c2 → fs1 = fs2 ∧ bs1 = bs2 ∧ c1 = c2 := by
  intro t a seen c es fs1 bs1 c1 h1
  induction h1 with
  | nil t a seen c =>
    intro fs2 bs2 c2 h2
    cases h2 with
    | nil => exact ⟨rfl, rfl, rfl⟩
  | skipFalsy t a seen c k s rest fs bs c' hf hrec ih =>
    intro fs2 bs2 c2 h2
    cases h2 with
    | skipFalsy _ _ _ _ _ _ _ _ _ _ hf2 hrec2 => exact ih hrec2
    | scalarExp _ _ _ _ _ _ _ _ _ hf2 hrec2 => rw [hf] at hf2; exact Bool.noConfusion hf2
    | fragOk => simp [isFalsy] at hf
    | inclTrue => simp [isFalsy] at hf
    | argsLeaf => simp [isFalsy] at hf
    | nodeSel => simp [isFalsy] at hf
  | scalarExp t a seen c s rest fs bs c' hf hrec ih =>
    intro fs2 bs2 c2 h2
    cases h2 with
    | skipFalsy _ _ _ _ _ _ _ _ _ _ hf2 hrec2 => rw [hf2] at hf; exact Bool.noConfusion hf
    | scalarExp _ _ _ _ _ _ _ _ _ hf2 hrec2 =>
      obtain ⟨e1, e2, e3⟩ := ih hrec2
      exact ⟨by rw [e1], e2, e3⟩
  | fragOk t a seen c x args children rest sub bs1 c1 fs bs2 c2 hc hch hne hr ihch ihr =>
    intro fs2 bs2' c2' h2
    cases h2 with
    | skipFalsy _ _ _ _ _ _ _ _ _ _ hf2 hrec2 => simp [isFalsy] at hf2
    | fragOk _ _ _ _ _ _ _ _ _ _ _ _ _ _ hc2 hch2 hne2 hr2 =>
      obtain ⟨e1, e2, e3⟩ := ihch hch2
      subst e1 e2 e3
      obtain ⟨f1, f2, f3⟩ := ihr hr2
      exact ⟨by rw [f1], by rw [f2], f3⟩
  | inclTrue t a seen c n rest fs bs c' hrec ih =>
    intro fs2 bs2 c2 h2
    cases h2 with
    | skipFalsy _ _ _ _ _ _ _ _ _ _ hf2 hrec2 => simp [isFalsy] at hf2
    | inclTrue _ _ _ _ _ _ _ _ _ hrec2 =>
      obtain ⟨e1, e2, e3⟩ := ih hrec2
      exact ⟨by rw [e1], e2, e3⟩
  | argsLeaf t a seen c n args rest fs bs2 c2 hrec ih =>
    intro fs2' bs2' c2' h2
    cases h2 with
    | skipFalsy _ _ _ _ _ _ _ _ _ _ hf2 hrec2 => simp [isFalsy] at hf2
    | argsLeaf _ _ _ _ _ _ _ _ _ _ hrec2 =>
      obtain ⟨e1, e2, e3⟩ := ih hrec2
      exact ⟨by rw [e1], by rw [e2], e3⟩
  | nodeSel t a seen c n args children rest sub bs2 c2 fs bs3 c3 hch hne hr ihch ihr =>
    intro fs2' bs2' c2' h2
    cases h2 with
    | skipFalsy _ _ _ _ _ _ _ _ _ _ hf2 hrec2 => simp [isFalsy] at hf2
    | nodeSel _ _ _ _ _ _ _ _ _ _ _ _ _ _ hch2 hne2 hr2 =>
      obtain ⟨e1, e2, e3⟩ := ihch hch2
      subst e1 e2 e3
      obtain ⟨f1, f2, f3⟩ := ihr hr2
      exact ⟨by rw [f1], by rw [f2], f3⟩

/-- Soundness: every successful run of the compiler is a derivation of
the big-step relation. -/
theorem compileEntries_EC (m : TypeLinkMap) :
    ∀ t a seen c es, ∀ fs bs c', compileEntries m t a seen c es = .ok (fs, bs, c') →
      EC m t a seen c es fs bs c' := by
  intro t a seen c es
  induction t, a, seen, c, es using compileEntries.induct (m := m) with
  | case1 t a seen c =>
    intro fs bs c' h
    simp only [compileEntries, Except.ok.injEq, Prod.mk.injEq] at h
    obtain ⟨rfl, rfl, rfl⟩ := h
    exact EC.nil t a seen c
  | case2 t a seen c key rest ih =>
    intro fs bs c' h
    simp only [compileEntries] at h
    exact EC.skipFalsy t a seen c key _ rest fs bs c' rfl (ih fs bs c' h)
  | case3 t a seen c sel rest hne names e hrest ih =>
    intro fs bs c' h
    simp only [compileEntries, hrest] at h
    exact Except.noConfusion h
  | case4 t a seen c sel rest hne names fs1 bs1 c1 hrest ih =>
    intro fs bs c' h
    simp only [compileEntries, hrest, Except.ok.injEq, Prod.mk.injEq] at h
    obtain ⟨rfl, rfl, rfl⟩ := h
    have hf : isFalsy sel = false := by
      cases sel with
      | incl b => cases b with
        | false => exact absurd rfl hne
        | true => rfl
      | leafArgs args => rfl
      | node args children => rfl
    exact EC.scalarExp t a seen c sel rest fs1 bs1 c1 hf (ih fs1 bs1 c1 hrest)
  | case5 t a seen c x rest hcont args children e hchild hne2 ih =>
    intro fs bs c' h
    simp only [compileEntries] at h
    rw [if_pos hcont] at h
    simp only [hchild] at h
    exact Except.noConfusion h
  | case6 t a seen c x rest hcont args children sub bs1 c1 hchild hempty hne2 ih =>
    intro fs bs c' h
    simp only [compileEntries] at h
    rw [if_pos hcont] at h
    simp only [hchild, hempty, if_true] at h
    exact Except.noConfusion h
  | case7 t a seen c x rest hcont args children sub bs1 c1 hchild hnemp e hrest hne2 ih1 ih2 =>
    intro fs bs c' h
    simp only [compileEntries] at h
    rw [if_pos hcont] at h
    simp only [hchild] at h
    rw [if_neg hnemp] at h
    simp only [hrest] at h
    exact Except.noConfusion h
  | case8 t a seen c x rest hcont args children sub bs1 c1 hchild hnemp fs2 bs2 c2 hrest hne2 ih1 ih2 =>
    intro fs bs c' h
    simp only [compileEntries] at h
    rw [if_pos hcont] at h
    simp only [hchild] at h
    rw [if_neg hnemp] at h
    simp only [hrest, Except.ok.injEq, Prod.mk.injEq] at h
    obtain ⟨rfl, rfl, rfl⟩ := h
    exact EC.fragOk t a seen c x args children rest sub bs1 c1 fs2 bs2 c2 hcont
      (ih1 sub bs1 c1 hchild) (by simpa using hnemp) (ih2 fs2 bs2 c2 hrest)
  | case9 t a seen c x s rest hne hcont hnode =>
    intro fs bs c' h
    cases s with
    | node args children => exact absurd rfl (hnode args children)
    | incl b =>
      cases b with
      | false => exact absurd rfl hne
      | true =>
        simp only [compileEntries] at h
        rw [if_pos hcont] at h
        exact Except.noConfusion h
    | leafArgs args =>
      simp only [compileEntries] at h
      rw [if_pos hcont] at h
      exact Except.noConfusion h
  | case10 t a seen c x s rest hne hncont =>
    intro fs bs c' h
    cases s with
    | node args children =>
      simp only [compileEntries] at h
      rw [if_neg hncont] at h
      exact Except.noConfusion h
    | incl b =>
      cases b with
      | false => exact absurd rfl hne
      | true =>
        simp only [compileEntries] at h
        rw [if_neg hncont] at h
        exact Except.noConfusion h
    | leafArgs args =>
      simp only [compileEntries] at h
      rw [if_neg hncont] at h
      exact Except.noConfusion h
  | case11 t a seen c n rest e hrest ih =>
    intro fs bs c' h
    simp only [compileEntries, hrest] at h
    exact Except.noConfusion h
  | case12 t a seen c n rest fs1 bs1 c1 hrest ih =>
    intro fs bs c' h
    simp only [compileEntries, hrest, Except.ok.injEq, Prod.mk.injEq] at h
    obtain ⟨rfl, rfl, rfl⟩ := h
    exact EC.inclTrue t a seen c n rest fs1 bs1 c1 (ih fs1 bs1 c1 hrest)
  | case13 t a seen c n args rest refs bs1 c1 hh e hrest ih =>
    intro fs bs c' h
    simp only [compileEntries, hh, hrest] at h
    exact Except.noConfusion h
  | case14 t a seen c n args rest refs bs1 c1 hh fs2 bs2 c2 hrest ih =>
    intro fs bs c' h
    simp only [compileEntries, hh, hrest, Except.ok.injEq, Prod.mk.injEq] at h
    obtain ⟨rfl, rfl, rfl⟩ := h
    have e1 : (hoistArgs m t n args c).1 = refs := by rw [hh]
    have e2 : (hoistArgs m t n args c).2.1 = bs1 := by rw [hh]
    have e3 : (hoistArgs m t n args c).2.2 = c1 := by rw [hh]
    rw [← e1, ← e2]
    refine EC.argsLeaf t a seen c n args rest fs2 bs2 c2 ?_
    rw [e3]
    exact ih fs2 bs2 c2 hrest
  | case15 t a seen c n args children rest childT refs bs1 c1 hh e hchild ih =>
    intro fs bs c' h
    simp only [compileEntries, hh, hchild] at h
    exact Except.noConfusion h
  | case16 t a seen c n args children rest childT refs bs1 c1 hh sub bs2 c2 hchild hempty ih =>
    intro fs bs c' h
    simp only [compileEntries, hh, hchild, hempty, if_true] at h
    exact Except.noConfusion h
  | case17 t a seen c n args children rest childT refs bs1 c1 hh sub bs2 c2 hchild hnemp e hrest ih1 ih2 =>
    intro fs bs c' h
    simp only [compileEntries, hh, hchild] at h
    rw [if_neg hnemp] at h
    simp only [hrest] at h
    exact Except.noConfusion h
  | case18 t a seen c n args children rest childT refs bs1 c1 hh sub bs2 c2 hchild hnemp fs3 bs3 c3 hrest ih1 ih2 =>
    intro fs bs c' h
    simp only [compileEntries, hh, hchild] at h
    rw [if_neg hnemp] at h
    simp only [hrest, Except.ok.injEq, Prod.mk.injEq] at h
    obtain ⟨rfl, rfl, rfl⟩ := h
    have e1 : (hoistArgs m t n args c).1 = refs := by rw [hh]
    have e2 : (hoistArgs m t n args c).2.1 = bs1 := by rw [hh]
    have e3 : (hoistArgs m t n args c).2.2 = c1 := by rw [hh]
    rw [← e1, ← e2]
    refine EC.nodeSel t a seen c n args children rest sub bs2 c2 fs3 bs3 c3 ?_
      (by simpa using hnemp) (ih2 fs3 bs3 c3 hrest)
    rw [e3]
    exact ih1 sub bs2 c2 hchild

/-- Completeness: every derivation of the big-step relation is realized
by the compiler. -/
theorem EC_compileEntries {m : TypeLinkMap} :
    ∀ {t : String} {a seen : List String} {c : Nat} {es : Entries}
      {fs : DocFields} {bs : List Binding} {c' : Nat},
      EC m t a seen c es fs bs c' →
      compileEntries m t a seen c es = .ok (fs, bs, c') := by
  intro t a seen c es fs bs c' h
  induction h with
  | nil t a seen c => rfl
  | skipFalsy t a seen c k s rest fs bs c' hf hrec ih =>
    cases s with
    | incl b =>
      cases b with
      | true => simp [isFalsy] at hf
      | false => simp only [compileEntries]; exact ih
    | leafArgs args => simp [isFalsy] at hf
    | node args children => simp [isFalsy] at hf
  | scalarExp t a seen c s rest fs bs c' hf hrec ih =>
    cases s with
    | incl b =>
      cases b with
      | false => simp [isFalsy] at hf
      | true => simp only [compileEntries, ih]
    | leafArgs args => simp only [compileEntries, ih]
    | node args children => simp only [compileEntries, ih]
  | fragOk t a seen c x args children rest sub bs1 c1 fs bs2 c2 hc hch hne hr ihch ihr =>
    simp only [compileEntries]
    rw [if_pos hc]
    simp only [ihch, hne, ihr]
    rfl
  | inclTrue t a seen c n rest fs bs c' hrec ih =>
    simp only [compileEntries, ih]
  | argsLeaf t a seen c n args rest fs bs2 c2 hrec ih =>
    simp only [compileEntries]
    rcases hh : hoistArgs m t n args c with ⟨refs, bs1, c1⟩
    have e1 : (hoistArgs m t n args c).1 = refs := by rw [hh]
    have e2 : (hoistArgs m t n args c).2.1 = bs1 := by rw [hh]
    have e3 : (hoistArgs m t n args c).2.2 = c1 := by rw [hh]
    rw [e3] at ih
    simp only [ih, e1, e2]
  | nodeSel t a seen c n args children rest sub bs2 c2 fs bs3 c3 hch hne hr ihch ihr =>
    simp only [compileEntries]
    rcases hh : hoistArgs m t n args c with ⟨refs, bs1, c1⟩
    have e1 : (hoistArgs m t n args c).1 = refs := by rw [hh]
    have e2 : (hoistArgs m t n args c).2.1 = bs1 := by rw [hh]
    have e3 : (hoistArgs m t n args c).2.2 = c1 := by rw [hh]
    rw [e3] at ihch
    simp only [ihch, hne, ihr, e1, e2]
    rfl

theorem entries_append_def (es fs : Entries) : Entries.append es fs = es ++ fs := rfl

theorem entries_nil_append (fs : Entries) : Entries.nil ++ fs = fs := rfl

theorem entries_cons_append (k : FieldKey) (s : Selection) (es fs : Entries) :
    Entries.cons k s es ++ fs = .cons k s (es ++ fs) := rfl

/-- Removing an entry whose selection is falsy changes nothing about
compilation: the compiler treats a field mapped to `false` exactly as if
it were absent. -/
theorem compileEntries_falsy_inert (m : TypeLinkMap) (kf : FieldKey) (post : Entries) :
    ∀ pre : Entries, ∀ (t : String) (a seen : List String) (c : Nat),
      compileEntries m t a seen c (pre ++ .cons kf (.incl false) post) =
        compileEntries m t a seen c (pre ++ post) := by
  intro pre
  induction pre using spineLen.induct with
  | case1 =>
    intro t a seen c
    rw [entries_nil_append, entries_nil_append]
    simp only [compileEntries]
  | case2 k s rest ih =>
    intro t a seen c
    rw [entries_cons_append, entries_cons_append]
    cases k with
    | plain n =>
      cases s with
      | incl b =>
        cases b with
        | false => simp only [compileEntries]; exact ih t a seen c
        | true => simp only [compileEntries, ih]
      | leafArgs args => simp only [compileEntries, ih]
      | node args children => simp only [compileEntries, ih]
    | scalarKey =>
      cases s with
      | incl b =>
        cases b with
        | false => simp only [compileEntries]; exact ih t a seen c
        | true => simp only [compileEntries, ih]
      | leafArgs args => simp only [compileEntries, ih]
      | node args children => simp only [compileEntries, ih]
    | onType x =>
      cases s with
      | incl b =>
        cases b with
        | false => simp only [compileEntries]; exact ih t a seen c
        | true => simp only [compileEntries, ih]
      | leafArgs args => simp only [compileEntries, ih]
      | node args children => simp only [compileEntries, ih]

/-- C1: compilation is deterministic — any two compilations of the same
Selection Tree, operation kind and Type Link Map yield byte-identical
document strings (indeed identical Compiled Operations), and the result
is exactly the value of the pure function `generateGraphqlOperation` on
those inputs. -/
theorem c1_compile_deterministic (m : TypeLinkMap) (k : OpKind) (tree : Entries)
    (op1 op2 : CompiledOperation)
    (h1 : OpCompiles m k tree op1) (h2 : OpCompiles m k tree op2) :
    op1.document = op2.document ∧ op1 = op2 ∧
      generateGraphqlOperation m k tree = .ok op1 := by
  obtain ⟨fs1, bs1, c1, hec1, he1, rfl⟩ := h1
  obtain ⟨fs2, bs2, c2, hec2, he2, rfl⟩ := h2
  obtain ⟨e1, e2, e3⟩ := EC_det hec1 hec2
  subst e1
  subst e2
  refine ⟨rfl, rfl, ?_⟩
  have hok := EC_compileEntries hec1
  unfold generateGraphqlOperation
  rw [hok]
  dsimp only
  rw [if_neg (by simp [he1])]

/-- Witness for C1 at a concrete input. -/
theorem c1_compile_deterministic_witness :
    (assembleOp .query oneFields []).document = (assembleOp .query oneFields []).document ∧
    assembleOp .query oneFields [] = assembleOp .query oneFields [] ∧
    generateGraphqlOperation linkMapX .query treeOne = .ok (assembleOp .query oneFields []) :=
  c1_compile_deterministic linkMapX .query treeOne _ _
    ⟨oneFields, [], 0, compileEntries_EC linkMapX _ _ _ _ _ _ _ _ rfl, rfl, rfl⟩
    ⟨oneFields, [], 0, compileEntries_EC linkMapX _ _ _ _ _ _ _ _ rfl, rfl, rfl⟩

/-- C2: for every Selection Tree level that compiles successfully, the
variable references emitted into the body are exactly the names of the
declared Variable Bindings, in order (so a name appears in the body if
and only if it is declared), and the declared names are pairwise
distinct (each appears exactly once in the declaration list). -/
theorem c2_variable_round_trip (m : TypeLinkMap) (t : String) (a seen : List String)
    (c : Nat) (es : Entries) (fs : DocFields) (bs : List Binding) (c' : Nat)
    (h : compileEntries m t a seen c es = .ok (fs, bs, c')) :
    bodyVars fs = bs.map Binding.name ∧ (bs.map Binding.name).Nodup := by
  obtain ⟨h1, h2, _⟩ := compileEntries_vars m t a seen c es fs bs c' h
  refine ⟨h1, ?_⟩
  rw [h2]
  exact varNames_nodup _ _

/-- Witness for C2 at a concrete input with two hoisted arguments. -/
theorem c2_variable_round_trip_witness :
    bodyVars dupFields = dupBinds.map Binding.name ∧
    (dupBinds.map Binding.name).Nodup :=
  c2_variable_round_trip linkMapX "Query" (entryNames treeDup) [] 0 treeDup
    dupFields dupBinds 2 rfl

/-- C3: at every level of a successfully compiled Selection Tree, the
result keys assigned to the occurrences of one field name are pairwise
distinct (the first keeps the field name, later duplicates get fresh
aliases, so no occurrence is overwritten and each is independently
addressable), and every non-falsy plain selection of a level name
produces exactly one addressable field. -/
theorem c3_duplicate_field_aliasing (m : TypeLinkMap) (t : String) (a seen : List String)
    (c : Nat) (es : Entries) (fs : DocFields) (bs : List Binding) (c' : Nat)
    (h : compileEntries m t a seen c es = .ok (fs, bs, c')) :
    (∀ n, (keysOfName n fs).Nodup) ∧
    (∀ n, n ∈ a → (keysOfName n fs).length = plainCount n es) := by
  obtain ⟨h1, h2⟩ := compileEntries_keys m t a seen c es fs bs c' h
  refine ⟨fun n => ?_, h2⟩
  rw [h1 n]
  exact keyList_nodup n _ _

/-- Witness for C3: the same field selected twice with different
arguments compiles to both occurrences, under distinct keys. -/
theorem c3_duplicate_field_aliasing_witness :
    (keysOfName "a" dupFields).Nodup ∧
    (keysOfName "a" dupFields).length = plainCount "a" treeDup ∧
    keysOfName "a" dupFields = ["a", "a_1"] ∧
    generateGraphqlOperation linkMapX .query treeDup =
      .ok ⟨.query, "query ($v0: String, $v1: String) \x7b a(f: $v0) a_1: a(f: $v1) \x7d",
            [("v0", "1"), ("v1", "2")]⟩ :=
  ⟨(c3_duplicate_field_aliasing linkMapX "Query" (entryNames treeDup) [] 0 treeDup
      dupFields dupBinds 2 rfl).1 "a",
   (c3_duplicate_field_aliasing linkMapX "Query" (entryNames treeDup) [] 0 treeDup
      dupFields dupBinds 2 rfl).2 "a" (by simp [treeDup, entryNames]),
   rfl, rfl⟩

/-- C4: a Selection Tree containing a reachable `on_X` whose `X` is not
in the Type Link Map's implementer set of the enclosing type never
compiles to a document, and the failure is the synchronous
`unknownTypeCondition` error (shown at a representative input). -/
theorem c4_unknown_type_condition :
    (∀ (m : TypeLinkMap) (k : OpKind) (tree : Entries),
        HasBadCond m (rootTypeName k) tree →
        (generateGraphqlOperation m k tree).isOk = false) ∧
    generateGraphqlOperation linkMapX .query treeBadCond =
      .error (.unknownTypeCondition "W") := by
  constructor
  · intro m k tree hbc
    have hno := hasBadCond_no_ok hbc (entryNames tree) [] 0
    unfold generateGraphqlOperation
    rcases hres : compileEntries m (rootTypeName k) (entryNames tree) [] 0 tree with e | v
    · rfl
    · rw [hres] at hno
      exact absurd hno (by simp [Except.isOk, Except.toBool])
  · rfl

/-- Witness for C4: the concrete bad tree is rejected. -/
theorem c4_unknown_type_condition_witness :
    (generateGraphqlOperation linkMapX .query treeBadCond).isOk = false :=
  c4_unknown_type_condition.1 linkMapX .query treeBadCond
    (HasBadCond.inNode "Query" "x" []
      (.cons (.plain "y") (.incl true)
        (.cons (.onType "W") (.node [] (.cons (.plain "w") (.incl true) .nil)) .nil))
      .nil
      (HasBadCond.inRest _ _ _ _
        (HasBadCond.hereBad _ "W" _ _ rfl rfl)))

/-- C5: the selection `{x: {y: true, on_Z: {w: true}}}` against abstract
type `X` implemented by `Z` and `Q` compiles to a document whose `x`
selection contains the plain field `y` and exactly one inline fragment
scoped to `Z` containing `w`, and no fragment for `Q`. -/
theorem c5_sibling_fragments :
    compileEntries linkMapX "Query" (entryNames treeC5) [] 0 treeC5 =
      .ok (.cons (.field "x" "x" [] subC5) .nil, [], 0) ∧
    keysOfName "y" subC5 = ["y"] ∧
    fragCount "Z" subC5 = 1 ∧
    fragCount "Q" subC5 = 0 ∧
    generateGraphqlOperation linkMapX .query treeC5 =
      .ok ⟨.query, "query \x7b x \x7b y ... on Z \x7b w \x7d \x7d \x7d", []⟩ :=
  ⟨rfl, rfl, rfl, rfl, rfl⟩

/-- C9: a field whose selection value is falsy is excluded from the
compiled document — compiling any level with a falsy entry equals
compiling the level without it — while sibling fields mapped to `true`
are fetched, as in the test selection `{coordinates: {x: false, y:
true}}` whose document contains `y` only. -/
theorem c9_falsy_not_fetched :
    (∀ (m : TypeLinkMap) (t : String) (a seen : List String) (c : Nat)
        (pre post : Entries) (kf : FieldKey),
        compileEntries m t a seen c (pre ++ .cons kf (.incl false) post) =
          compileEntries m t a seen c (pre ++ post)) ∧
    generateGraphqlOperation linkMapX .query treeFalsy =
      .ok ⟨.query, "query \x7b coordinates \x7b y \x7d \x7d", []⟩ :=
  ⟨fun m t a seen c pre post kf => compileEntries_falsy_inert m kf post pre t a seen c,
   rfl⟩

theorem runSequential_headerCount (hf : Nat → List (String × String)) :
    ∀ (ops : List String) (i : Nat),
      (runSequential hf i ops).countP isHeaderEval = ops.length := by
  intro ops
  induction ops with
  | nil => intro i; rfl
  | cons op rest ih =>
    intro i
    simp [runSequential, List.countP_cons, isHeaderEval, ih (i + 1)]

theorem runSequential_dispatch_headers (hf : Nat → List (String × String)) :
    ∀ (ops : List String) (i j : Nat) (h : List (String × String)) (op : String),
      TEvent.dispatch j h op ∈ runSequential hf i ops → h = hf j := by
  intro ops
  induction ops with
  | nil => intro i j h op hmem; simp [runSequential] at hmem
  | cons op0 rest ih =>
    intro i j h op hmem
    simp only [runSequential, List.mem_cons] at hmem
    rcases hmem with h1 | h1 | h1
    · exact TEvent.noConfusion h1
    · injection h1 with e1 e2 e3
      subst e1
      exact e2
    · exact ih (i + 1) j h op h1

theorem runSequential_precedes (hf : Nat → List (String × String)) :
    ∀ (ops : List String) (i j : Nat), j < ops.length →
      precedes (.headerEval (i + j) (hf (i + j)))
        (.dispatch (i + j) (hf (i + j)) (ops.getD j ""))
        (runSequential hf i ops) := by
  intro ops
  induction ops with
  | nil => intro i j hj; simp at hj
  | cons op0 rest ih =>
    intro i j hj
    cases j with
    | zero =>
      refine ⟨[], [], runSequential hf (i + 1) rest, ?_⟩
      simp [runSequential]
    | succ j =>
      have hj' : j < rest.length := by simpa using hj
      obtain ⟨l1, l2, l3, heq⟩ := ih (i + 1) j hj'
      refine ⟨.headerEval i (hf i) :: .dispatch i (hf i) op0 :: l1, l2, l3, ?_⟩
      have harith : i + (j + 1) = i + 1 + j := by omega
      simp only [runSequential, harith, List.getD]
      rw [heq]
      rfl

theorem subStep_RegInv {s : SubState} (h : RegInv s) (e : SubEvent) :
    RegInv (subStep s e).1 := by
  obtain ⟨hnd, hlt⟩ := h
  cases e with
  | subscribe =>
    refine ⟨?_, ?_⟩
    · exact List.nodup_cons.mpr ⟨fun hmem => absurd (hlt _ hmem) (by omega), hnd⟩
    · intro j hj
      rcases List.mem_cons.mp hj with rfl | hj
      · simp [subStep]
      · have := hlt j hj
        simp [subStep]
        omega
  | unsubscribe i =>
    exact ⟨hnd.erase i, fun j hj => hlt j (List.mem_of_mem_erase hj)⟩
  | dataMsg i => exact ⟨hnd, hlt⟩

theorem subRun_RegInv : ∀ (evs : List SubEvent) (s : SubState), RegInv s →
    RegInv (subRun s evs).1 := by
  intro evs
  induction evs with
  | nil => intro s h; exact h
  | cons e evs ih =>
    intro s h
    simp only [subRun]
    exact ih _ (subStep_RegInv h e)

theorem subRun_append (l1 : List SubEvent) :
    ∀ (s : SubState) (l2 : List SubEvent),
      subRun s (l1 ++ l2) =
        ((subRun (subRun s l1).1 l2).1, (subRun s l1).2 ++ (subRun (subRun s l1).1 l2).2) := by
  induction l1 with
  | nil => intro s l2; simp [subRun]
  | cons e l1 ih =>
    intro s l2
    simp only [List.cons_append, subRun, List.append_eq]
    rw [ih (subStep s e).1 l2]
    simp [List.append_assoc]

/-- After an id is out of the registration table and below the fresh-id
counter, no later event can ever deliver `next` for it: fresh
allocations use larger ids and data messages for unregistered ids are
dropped. -/
theorem no_next_when_unregistered :
    ∀ (evs : List SubEvent) (s : SubState) (i : Nat),
      RegInv s → i ∉ s.registered → i < s.nextId →
      SubAction.next i ∉ (subRun s evs).2 := by
  intro evs
  induction evs with
  | nil => intro s i _ _ _ hmem; simp [subRun] at hmem
  | cons e evs ih =>
    intro s i hinv hreg hlt hmem
    simp only [subRun, List.mem_append] at hmem
    rcases hmem with hmem | hmem
    · cases e with
      | subscribe =>
        simp only [subStep] at hmem
        rcases List.mem_append.mp hmem with h | h
        · by_cases hc : s.connected = true
          · rw [if_pos hc] at h; simp at h
          · rw [if_neg hc] at h; simp at h
        · simp at h
      | unsubscribe j => simp [subStep] at hmem
      | dataMsg j =>
        simp only [subStep] at hmem
        by_cases hj : j ∈ s.registered
        · rw [if_pos hj] at hmem
          have h := List.mem_singleton.mp hmem
          injection h with h2
          exact hreg (h2 ▸ hj)
        · rw [if_neg hj] at hmem
          simp at hmem
    · cases e with
      | subscribe =>
        refine ih _ i (subStep_RegInv hinv .subscribe) ?_ ?_ hmem
        · intro hm
          simp only [subStep] at hm
          rcases List.mem_cons.mp hm with h | h
          · omega
          · exact hreg h
        · simp only [subStep]
          omega
      | unsubscribe j =>
        refine ih _ i (subStep_RegInv hinv (.unsubscribe j)) ?_ ?_ hmem
        · intro hm
          simp only [subStep] at hm
          exact hreg (List.mem_of_mem_erase hm)
        · simpa [subStep] using hlt
      | dataMsg j =>
        exact ih _ i hinv hreg hlt hmem

/-- C6: two calls issued within one flush window against a batching
client produce exactly one outbound request carrying both operations in
submission order, and (when the response array matches the request
length) each call's promise resolves with the response element at its
own array position. -/
theorem c6_batching_positional (q1 q2 : String) (server : List String → List String) :
    (flushBatch server [q1, q2]).requests = [[q1, q2]] ∧
    (flushBatch server [q1, q2]).requests.length = 1 ∧
    ((server [q1, q2]).length = 2 →
      ∀ i : Nat, (flushBatch server [q1, q2]).results[i]? =
        ((server [q1, q2])[i]?).map Except.ok) := by
  refine ⟨rfl, rfl, fun hlen i => ?_⟩
  simp only [flushBatch]
  rw [if_pos (by simpa using hlen)]
  exact List.getElem?_map Except.ok (server [q1, q2]) i

/-- Witness for C6 with a concrete server answering in reverse order. -/
theorem c6_batching_positional_witness :
    (flushBatch List.reverse ["a", "b"]).requests = [["a", "b"]] ∧
    (flushBatch List.reverse ["a", "b"]).results[0]? = some (.ok "b") ∧
    (flushBatch List.reverse ["a", "b"]).results[1]? = some (.ok "a") :=
  ⟨(c6_batching_positional "a" "b" List.reverse).1,
   ((c6_batching_positional "a" "b" List.reverse).2.2 rfl 0).trans rfl,
   ((c6_batching_positional "a" "b" List.reverse).2.2 rfl 1).trans rfl⟩

/-- C7: executing `n` non-batched calls invokes the header function
exactly `n` times — once per dispatched operation, never memoized: the
dispatch of call `i` carries exactly the `i`-th header invocation's
result, and each header evaluation strictly precedes its own dispatch
(the dispatch waits for the resolved headers). -/
theorem c7_headers_every_call (hf : Nat → List (String × String)) (ops : List String) :
    (runSequential hf 0 ops).countP isHeaderEval = ops.length ∧
    (∀ i h op, TEvent.dispatch i h op ∈ runSequential hf 0 ops → h = hf i) ∧
    (∀ i, i < ops.length →
      precedes (.headerEval i (hf i)) (.dispatch i (hf i) (ops.getD i ""))
        (runSequential hf 0 ops)) := by
  refine ⟨runSequential_headerCount hf ops 0,
    fun i h op hm => runSequential_dispatch_headers hf ops 0 i h op hm,
    fun i hi => ?_⟩
  have h := runSequential_precedes hf ops 0 i hi
  simpa using h

/-- Witness for C7: two calls, two header invocations, fresh values. -/
theorem c7_headers_every_call_witness :
    (runSequential hfFresh 0 ["opA", "opB"]).countP isHeaderEval = 2 ∧
    [("auth", natStr 1)] = hfFresh 1 ∧
    precedes (.headerEval 1 (hfFresh 1)) (.dispatch 1 (hfFresh 1) "opB")
      (runSequential hfFresh 0 ["opA", "opB"]) :=
  ⟨(c7_headers_every_call hfFresh ["opA", "opB"]).1,
   (c7_headers_every_call hfFresh ["opA", "opB"]).2.1 1 [("auth", natStr 1)] "opB"
     (by simp [runSequential, hfFresh]),
   (c7_headers_every_call hfFresh ["opA", "opB"]).2.2 1 (by decide)⟩

/-- C8: after `unsubscribe(i)` returns, the observer of correlation id
`i` is never invoked again — for any events processed after the
unsubscribe, including data messages the server later emits for `i`, no
`next i` action occurs (`i` was allocated, hence below the fresh-id
counter, and fresh ids never collide with it). -/
theorem c8_unsubscribe_no_next (pre post : List SubEvent) (i : Nat)
    (hlt : i < ((subRun initSubState (pre ++ [.unsubscribe i])).1).nextId) :
    SubAction.next i ∉ (subRun (subRun initSubState (pre ++ [.unsubscribe i])).1 post).2 := by
  have hinit : RegInv initSubState := ⟨List.nodup_nil, by intro j hj; simp [initSubState] at hj⟩
  have hinv1 : RegInv (subRun initSubState (pre ++ [.unsubscribe i])).1 :=
    subRun_RegInv _ _ hinit
  have hinv0 : RegInv (subRun initSubState pre).1 := subRun_RegInv _ _ hinit
  have heq : (subRun initSubState (pre ++ [.unsubscribe i])).1 =
      ⟨(subRun initSubState pre).1.nextId,
       (subRun initSubState pre).1.registered.erase i,
       (subRun initSubState pre).1.connected⟩ := by
    rw [subRun_append]
    simp [subRun, subStep]
  have hni : i ∉ (subRun initSubState (pre ++ [.unsubscribe i])).1.registered := by
    rw [heq]
    exact List.Nodup.not_mem_erase hinv0.1
  exact no_next_when_unregistered post _ i hinv1 hni hlt

/-- Witness for C8: subscribe immediately followed by unsubscribe, then
two late data messages for the id, delivers nothing. -/
theorem c8_unsubscribe_no_next_witness :
    SubAction.next 0 ∉
      (subRun (subRun initSubState ([.subscribe] ++ [.unsubscribe 0])).1
        [.dataMsg 0, .dataMsg 0]).2 :=
  c8_unsubscribe_no_next [.subscribe] [.dataMsg 0, .dataMsg 0] 0 (by decide)

theorem connected_no_header : ∀ (evs : List SubEvent) (s : SubState),
    s.connected = true → (subRun s evs).2.countP isHeaderResolve = 0 := by
  intro evs
  induction evs with
  | nil => intro s h; rfl
  | cons e evs ih =>
    intro s h
    simp only [subRun, List.countP_append]
    cases e with
    | subscribe =>
      simp only [subStep]
      rw [if_pos h]
      have h2 := ih ⟨s.nextId + 1, s.nextId :: s.registered, true⟩ rfl
      simp [List.countP_cons, isHeaderResolve, h2]
    | unsubscribe j =>
      have h2 := ih ⟨s.nextId, s.registered.erase j, s.connected⟩ h
      simp [subStep, List.countP_cons, isHeaderResolve, h2]
    | dataMsg j =>
      have h2 := ih s h
      by_cases hj : j ∈ s.registered
      · simp [subStep, if_pos hj, List.countP_cons, isHeaderResolve, h2]
      · simp [subStep, if_neg hj, List.countP_cons, isHeaderResolve, h2]

theorem disconnected_header_count : ∀ (evs : List SubEvent) (s : SubState),
    s.connected = false →
    (subRun s evs).2.countP isHeaderResolve = (if evs.any isSubscribeEv then 1 else 0) := by
  intro evs
  induction evs with
  | nil => intro s h; rfl
  | cons e evs ih =>
    intro s h
    simp only [subRun, List.countP_append]
    cases e with
    | subscribe =>
      simp only [subStep]
      rw [if_neg (by simp [h])]
      have h2 := connected_no_header evs ⟨s.nextId + 1, s.nextId :: s.registered, true⟩ rfl
      simp [List.countP_cons, isHeaderResolve, h2, List.any_cons, isSubscribeEv]
    | unsubscribe j =>
      have h2 := ih ⟨s.nextId, s.registered.erase j, s.connected⟩ h
      simp [subStep, List.countP_cons, isHeaderResolve, h2, List.any_cons, isSubscribeEv]
    | dataMsg j =>
      have h2 := ih s h
      by_cases hj : j ∈ s.registered
      · simp [subStep, if_pos hj, List.countP_cons, isHeaderResolve, isNextAction, h2,
          List.any_cons, isSubscribeEv]
      · simp [subStep, if_neg hj, List.countP_cons, isHeaderResolve, h2,
          List.any_cons, isSubscribeEv]

/-- C10: the Subscription Client's header function is resolved exactly
once per connection — at connection establishment — never per delivered
event or per further subscribe: over any event sequence from the fresh
client the header-resolution count is one when some subscribe occurred
and zero otherwise, and in particular one subscription receiving two
data events resolves headers exactly once while delivering twice. -/
theorem c10_subscription_headers_once :
    (∀ evs : List SubEvent,
      (subRun initSubState evs).2.countP isHeaderResolve =
        (if evs.any isSubscribeEv then 1 else 0)) ∧
    (subRun initSubState [.subscribe, .dataMsg 0, .dataMsg 0]).2.countP isHeaderResolve = 1 ∧
    (subRun initSubState [.subscribe, .dataMsg 0, .dataMsg 0]).2.countP isNextAction = 2 :=
  ⟨fun evs => disconnected_header_count evs initSubState rfl, rfl, rfl⟩
